import Mathlib

/-!
Shallow embedding of the SCg→SCs serializer (`src/sc_scs_writer.cpp`) of the
gwf-translator repository, together with theorems about the properties the
specification states for it.

Modelling conventions:
* elements live in an arena `Graph := List Elem`; the C++ shared-pointer
  references (connector endpoints, contour children) become indices into the
  arena, and pointer identity becomes index equality;
* the two external type-lookup collaborators
  (`SCgToSCsTypesConverter::ConvertSCgNodeTypeToSCsNodeType` and
  `ConvertSCgConnectorTypeToSCsConnectorDesignation`) are passed as function
  parameters `cN`, `cC`;
* the output buffer is modelled as an event log: every piece of text appended
  to the buffer becomes an event, tagged with the arena index of the element
  whose declaration it is (or `none` for closing markers); the buffer content
  is the concatenation `outText` of the event texts;
* fallible C++ operations (`dynamic_pointer_cast` followed by a dereference,
  pointer dereference itself) become `Except String`: an `.error` marks what
  in C++ would be undefined behaviour on a tag/shape mismatch;
* the unguarded recursion of `Write` into contour children is given a `fuel`
  parameter; running out of fuel is an `.error`, and sufficiency of any fuel
  larger than the arena size is proved (`write_total`).
-/

namespace SCsWriter

/-- Element tags of the SCg model (the NODE, ARC, PAIR, CONTOUR, BUS tag
constants of the source). -/
inductive Tag
  | node | arc | pair | contour | bus
deriving DecidableEq, Repr

/-- An SCg element: stable id (`GetId`), raw identifier (`GetIdentifier`),
type descriptor (`GetType`), tag (`GetTag`), and the shape-specific data the
C++ code reaches through `dynamic_pointer_cast`: `conn = some (s, t)` for an
`SCgConnector` with source `s` and target `t`, `children` for an
`SCgContour`, and `content = some c` for an `SCgLink` with content data `c`. -/
structure Elem where
  eid : String
  identifier : String
  etype : String
  tag : Tag
  conn : Option (Nat × Nat) := none
  children : Option (List Nat) := none
  content : Option String := none
deriving DecidableEq, Repr

/-- The element arena; every reference in the model is an index into it. -/
abbrev Graph := List Elem

/-- Modelled from the spec: the `Constants` header is not part of `src/`.
`ALIAS_PREFIX` is the two-character marker `##` of the alias form
`##<connectorPrefix>_<id>` (spec §4.1 step 7). -/
def aliasMark : String := "##"

/-- Modelled from the spec: the plain-element synthesis marker (`EL_PREFIX`)
used in the fallback `<prefix>_<id>` of spec §4.1 step 4. -/
def elPre : String := "el"

/-- Modelled from the spec: the variable-element synthesis marker
(`EL_VAR_PREFIX`).  Per the spec's variable-prefixing guarantee (§8) the
identifier synthesized for a variable starts with an underscore, so the
marker itself is underscore-led. -/
def elVarPre : String := "_el"

/-- Modelled from the spec: the `CONNECTOR` marker of the connector alias
`##<connectorPrefix>_<id>` (spec §4.1 step 7). -/
def connectorPre : String := "connector"

/-- Modelled from the spec: the variable marker substring (`VAR`) searched
for in the type descriptor (spec §4.1 step 2). -/
def varMark : String := "var"

/-- `utils::StringUtils::ReplaceAll(elementId, DASH, UNDERSCORE)`: replace
every dash by an underscore (`DASH` and `UNDERSCORE` are one-character
strings, so the replacement is a character map). -/
def replaceDash (s : String) : String :=
  String.mk (s.toList.map fun c => if c = '-' then '_' else c)

/-- `SCsWriter::MakeAlias` (sc_scs_writer.cpp:20–23). -/
def makeAlias (p elementId : String) : String :=
  aliasMark ++ p ++ "_" ++ replaceDash elementId

/-- Substring containment, `std::string::find(sub) != npos`. -/
def hasSub (needle : List Char) : List Char → Bool
  | [] => needle.isEmpty
  | c :: tl => needle.isPrefixOf (c :: tl) || hasSub needle tl

/-- `SCsWriter::IsVariable` (sc_scs_writer.cpp:25–28). -/
def isVariable (elementType : String) : Bool :=
  hasSub varMark.toList elementType.toList

/-- A character allowed by the legality regex `^[0-9a-zA-Z_]*$`. -/
def isEnglishChar (c : Char) : Bool :=
  c.isAlphanum || c == '_'

/-- `SCgIdentifierCorrector::IsEnglishIdentifier` (sc_scs_writer.cpp:36–40):
the whole string matches `^[0-9a-zA-Z_]*$`. -/
def isEnglishIdentifier (s : String) : Bool :=
  s.toList.all isEnglishChar

/-- A character of the natural-language class of
`SCgIdentifierCorrector::IsRussianIdentifier`: digits, ASCII letters,
underscore, asterisk, apostrophe (code 39), space, and the Cyrillic letters
whose UTF-8 encodings the byte ranges `\xD0\x80-\xD1\x8F`, `\xD1\x91`,
`\xD0\x81` of the source regex denote (А..я U+0410–U+044F, ё U+0451,
Ё U+0401). -/
def isRussianChar (c : Char) : Bool :=
  isEnglishChar c || c == '*' || c.toNat == 39 || c == ' ' ||
    (decide (0x410 ≤ c.toNat) && decide (c.toNat ≤ 0x44F)) ||
    c.toNat == 0x451 || c.toNat == 0x401

/-- `SCgIdentifierCorrector::IsRussianIdentifier` (sc_scs_writer.cpp:30–34). -/
def isRussianIdentifier (s : String) : Bool :=
  s.toList.all isRussianChar

/-- `SCgIdentifierCorrector::GenerateIdentifierForUnresolvedCharacters`
(sc_scs_writer.cpp:56–64): synthesize `<prefix>_<id-with-dashes-replaced>`. -/
def generateIdentifierForUnresolvedCharacters (elementId : String) (isVar : Bool) : String :=
  (if isVar then elVarPre else elPre) ++ "_" ++ replaceDash elementId

/-- `SCgIdentifierCorrector::GenerateCorrectedIdentifier`
(sc_scs_writer.cpp:42–54).  The `[]` branch of the inner match is unreachable
(the candidate is non-empty there); it returns the candidate unchanged. -/
def generateCorrectedIdentifier (systemIdentifier : String) (elementId : String)
    (isVar : Bool) : String :=
  if systemIdentifier.isEmpty then
    generateIdentifierForUnresolvedCharacters elementId isVar
  else
    match systemIdentifier.toList with
    | [] => systemIdentifier
    | c :: _ =>
      if isVar && c != '_' then "_" ++ systemIdentifier else systemIdentifier

/-- The output-side descriptor written into the `SCsElement`
(`SetIdentifierForSCs` / `SetMainIdentifier`). -/
structure SCsElem where
  identifierForSCs : String
  mainIdentifier : Option String
deriving DecidableEq, Repr

/-- `SCgIdentifierCorrector::GenerateSCsIdentifier` (sc_scs_writer.cpp:71–95):
the identifier resolver.  Starts from the raw identifier; routes a
natural-language identifier into the main-identifier channel and clears the
candidate; corrects the candidate; finally overrides the result with the
connector alias when the tag is PAIR or ARC. -/
def generateSCsIdentifier (e : Elem) : SCsElem :=
  let isVar := isVariable e.etype
  let cand := if isEnglishIdentifier e.identifier then e.identifier else ""
  let main : Option String :=
    if isEnglishIdentifier e.identifier then none
    else if isRussianIdentifier e.identifier then some e.identifier else none
  let corrected := generateCorrectedIdentifier cand e.eid isVar
  let idtf :=
    if e.tag = Tag.pair ∨ e.tag = Tag.arc then makeAlias connectorPre e.eid
    else corrected
  ⟨idtf, main⟩

/-! ## The serializer state -/

/-- Serializer state: the shared write-once set (`writtenElements`, as the
list of inserted indices in insertion order) and the output buffer as an
event log.  Each event is a piece of text appended to the buffer, tagged
with the index of the element whose declaration it is (`none` for the
closing marker of a contour). -/
structure St where
  written : List Nat
  events : List (Option Nat × String)
deriving DecidableEq, Repr

/-- Concatenation of the texts of an event list. -/
def catTexts : List (Option Nat × String) → String
  | [] => ""
  | ev :: rest => ev.2 ++ catTexts rest

/-- The buffer content: concatenation of the event texts. -/
def outText (st : St) : String :=
  catTexts st.events

/-- `Buffer::AddTabs(depth)`: `depth` tab characters. -/
def tabs (n : Nat) : String := String.mk (List.replicate n '\t')

/-- Append un-tagged text to the buffer. -/
def emit (st : St) (s : String) : St :=
  { st with events := st.events ++ [(none, s)] }

/-- Insert element `i` into the write-once set and append its declaration
text to the buffer. -/
def markWrite (st : St) (i : Nat) (s : String) : St :=
  ⟨st.written ++ [i], st.events ++ [(some i, s)]⟩

/-- The identifier used for an element at an emission site, with the
per-kind fallback `<kind><id>` when the raw identifier is empty. -/
def identOrFallback (kind : String) (e : Elem) : String :=
  if e.identifier.isEmpty then kind ++ e.eid else e.identifier

/-! ## Reachability collector -/

/-- One pass of `SCsWriter::CollectNodes` (sc_scs_writer.cpp:98–116) over a
scope list, with `go` standing for the recursive call into a contour's
children.  Accumulator: `(nodes, visitedContours)`, both as insertion-order
lists used as sets. -/
def collectNodesAux
    (go : List Nat → List Nat × List Nat → Except String (List Nat × List Nat))
    (G : Graph) : List Nat → List Nat × List Nat → Except String (List Nat × List Nat)
  | [], acc => .ok acc
  | i :: rest, (nodes, visited) =>
    match G[i]? with
    | none => .error "dangling element reference"
    | some e =>
      if e.tag = Tag.node then
        collectNodesAux go G rest
          (if nodes.contains i then nodes else nodes ++ [i], visited)
      else if e.tag = Tag.contour then
        if visited.contains i then collectNodesAux go G rest (nodes, visited)
        else
          match e.children with
          | none => .error "contour shape mismatch"
          | some ch =>
            match go ch (nodes, i :: visited) with
            | .error msg => .error msg
            | .ok acc2 => collectNodesAux go G rest acc2
      else
        collectNodesAux go G rest (nodes, visited)

/-- `SCsWriter::CollectNodes`, with fuel bounding the contour recursion
depth (in C++ the recursion is bounded by the visited-contour guard; fuel
`G.length + 1` is always enough, see `collectNodes_total`). -/
def collectNodes (G : Graph) :
    Nat → List Nat → List Nat × List Nat → Except String (List Nat × List Nat)
  | 0, _, _ => .error "contour nesting exceeds fuel"
  | fuel + 1, scope, acc => collectNodesAux (collectNodes G fuel) G scope acc

/-! ## Serializer steps -/

/-- Step 1 of `SCsWriter::Write` (sc_scs_writer.cpp:130–153): emit each
collected node once — identifier line (fallback `node_<id>`), indented type
line via the external lookup `cN` (fallback `node_`), and a content line for
a link with non-empty content; the whole declaration is followed by a blank
line. -/
def writeNodes (G : Graph) (cN : String → String) (depth : Nat) :
    List Nat → St → Except String St
  | [], st => .ok st
  | i :: rest, st =>
    match G[i]? with
    | none => .error "dangling element reference"
    | some e =>
      if st.written.contains i then writeNodes G cN depth rest st
      else
        let ident := identOrFallback "node_" e
        let t0 := cN e.etype
        let typeStr := if t0.isEmpty then "node_" else t0
        let contentPart :=
          match e.content with
          | some c =>
            if c.isEmpty then "" else tabs (depth + 1) ++ "-> [" ++ c ++ "];;\n"
          | none => ""
        let text := tabs depth ++ ident ++ "\n" ++
          tabs (depth + 1) ++ "<- " ++ typeStr ++ ";;\n" ++ contentPart ++ "\n"
        writeNodes G cN depth rest (markWrite st i text)

/-- Step 2 of `SCsWriter::Write` (sc_scs_writer.cpp:155–170): the edge
classifier.  One pass over the scope producing `(complexArcs,
attributeArcs)`: for a connector whose target is itself a connector, the
target joins `complexArcs` and the connector joins `attributeArcs`. -/
def classifyArcs (G : Graph) :
    List Nat → List Nat × List Nat → Except String (List Nat × List Nat)
  | [], acc => .ok acc
  | i :: rest, (cx, aa) =>
    match G[i]? with
    | none => .error "dangling element reference"
    | some e =>
      if e.tag = Tag.arc ∨ e.tag = Tag.pair then
        match e.conn with
        | none => .error "connector shape mismatch"
        | some (_, t) =>
          match G[t]? with
          | none => .error "dangling element reference"
          | some te =>
            if te.tag = Tag.arc ∨ te.tag = Tag.pair then
              classifyArcs G rest
                (if cx.contains t then cx else cx ++ [t],
                 if aa.contains i then aa else aa ++ [i])
            else classifyArcs G rest (cx, aa)
      else classifyArcs G rest (cx, aa)

/-- The incident-source search of step 3 (sc_scs_writer.cpp:189–202): the
first connector of the scope whose target is `selfIdx` yields the identifier
(with `node_<id>` fallback) of its source; `none` when no such connector
exists.  In C++ "found" is signalled by a non-empty `attrSourceId`; the
fallback makes the found identifier always non-empty, so the `Option`
faithfully mirrors the emptiness test. -/
def findIncident (G : Graph) (selfIdx : Nat) : List Nat → Except String (Option String)
  | [] => .ok none
  | i :: rest =>
    match G[i]? with
    | none => .error "dangling element reference"
    | some e =>
      if e.tag = Tag.arc ∨ e.tag = Tag.pair then
        match e.conn with
        | none => .error "connector shape mismatch"
        | some (s, t) =>
          if t = selfIdx then
            match G[s]? with
            | none => .error "dangling element reference"
            | some se => .ok (some (identOrFallback "node_" se))
          else findIncident G selfIdx rest
      else findIncident G selfIdx rest

/-- The connector symbol of step 3: external lookup `cC`, with the generic
arrow `->` as fallback when the lookup yields nothing. -/
def symbolOf (cC : String → String) (e : Elem) : String :=
  let c0 := cC e.etype
  if c0.isEmpty then "->" else c0

/-- Step 3 of `SCsWriter::Write` (sc_scs_writer.cpp:172–227): emit the
connectors of the current scope in order, skipping already-written elements
and attribute arcs; a complex arc with an incident source renders as a
ternary statement, everything else as a plain binary edge. -/
def writeArcs (G : Graph) (cC : String → String) (depth : Nat)
    (scope complexA attrA : List Nat) : List Nat → St → Except String St
  | [], st => .ok st
  | i :: rest, st =>
    match G[i]? with
    | none => .error "dangling element reference"
    | some e =>
      if e.tag = Tag.arc ∨ e.tag = Tag.pair then
        if st.written.contains i then
          writeArcs G cC depth scope complexA attrA rest st
        else if attrA.contains i then
          writeArcs G cC depth scope complexA attrA rest st
        else
          match e.conn with
          | none => .error "connector shape mismatch"
          | some (s, t) =>
            match G[s]?, G[t]? with
            | some se, some te =>
              let sourceId := identOrFallback "node_" se
              let targetId := identOrFallback "node_" te
              let sym := symbolOf cC e
              let binLine := tabs depth ++ sourceId ++ " " ++ sym ++ " " ++
                targetId ++ ";;\n\n"
              if complexA.contains i then
                match findIncident G i scope with
                | .error msg => .error msg
                | .ok (some a) =>
                  let line := tabs depth ++ sourceId ++ " " ++ sym ++ " " ++
                    a ++ ": " ++ targetId ++ ";;\n\n"
                  writeArcs G cC depth scope complexA attrA rest (markWrite st i line)
                | .ok none =>
                  writeArcs G cC depth scope complexA attrA rest (markWrite st i binLine)
              else
                writeArcs G cC depth scope complexA attrA rest (markWrite st i binLine)
            | _, _ => .error "dangling element reference"
      else writeArcs G cC depth scope complexA attrA rest st

/-- Step 4 of `SCsWriter::Write` (sc_scs_writer.cpp:229–243), with `go`
standing for the recursive `Write` call: emit each not-yet-written contour —
opening header (identifier with `contour_<id>` fallback), recursively
emitted body at `depth + 1`, closing marker. -/
def writeContoursAux (go : List Nat → Nat → St → Except String St)
    (G : Graph) (depth : Nat) : List Nat → St → Except String St
  | [], st => .ok st
  | i :: rest, st =>
    match G[i]? with
    | none => .error "dangling element reference"
    | some e =>
      if e.tag = Tag.contour then
        if st.written.contains i then writeContoursAux go G depth rest st
        else
          match e.children with
          | none => .error "contour shape mismatch"
          | some ch =>
            let ident := identOrFallback "contour_" e
            let st1 := markWrite st i (tabs depth ++ ident ++ " = [*\n")
            match go ch (depth + 1) st1 with
            | .error msg => .error msg
            | .ok st2 =>
              writeContoursAux go G depth rest (emit st2 (tabs depth ++ "*];;\n\n"))
      else writeContoursAux go G depth rest st

/-- `SCsWriter::Write` (sc_scs_writer.cpp:118–244): collect the reachable
nodes (fresh visited-contour set, as in the C++ code), emit them, classify
the scope's connectors, emit them, then emit the contours recursively.  The
fuel bounds the contour recursion depth; `G.length + 1` is always enough
(`write_total`). -/
def write (G : Graph) (cN cC : String → String) :
    Nat → List Nat → Nat → St → Except String St
  | 0, _, _, _ => .error "contour nesting exceeds fuel"
  | fuel + 1, scope, depth, st =>
    match collectNodes G (G.length + 1) scope ([], []) with
    | .error msg => .error msg
    | .ok (allNodes, _) =>
      match writeNodes G cN depth allNodes st with
      | .error msg => .error msg
      | .ok st1 =>
        match classifyArcs G scope ([], []) with
        | .error msg => .error msg
        | .ok (complexA, attrA) =>
          match writeArcs G cC depth scope complexA attrA scope st1 with
          | .error msg => .error msg
          | .ok st2 =>
            writeContoursAux (fun sc d s => write G cN cC fuel sc d s) G depth scope st2

/-- `SCsWriter::WriteMainIdentifier` (sc_scs_writer.cpp:246–256): the
main-identifier relation block (pure formatting; called by an external
orchestrator). -/
def writeMainIdentifier (depth : Nat) (systemIdentifier mainIdentifier : String) : String :=
  "\n" ++ tabs depth ++ systemIdentifier ++ "\n" ++
    tabs depth ++ " " ++ "<=" ++ " " ++ "nrel_main_idtf" ++ ":" ++ " " ++ "[" ++
    mainIdentifier ++ "]" ++ ";;" ++ "\n"

/-! ## Derived notions used by the theorems -/

/-- The element indices declared by an event list. -/
def tagsOf (evs : List (Option Nat × String)) : List Nat :=
  evs.filterMap Prod.fst

/-- The emission discipline every serializer step obeys: the buffer is only
appended to (`new` events), the write-once set grows exactly by the tags of
the new events, the new tags are pairwise distinct, and none of them was in
the write-once set before. -/
def StepSpec (st st' : St) : Prop :=
  ∃ new, st'.events = st.events ++ new ∧ st'.written = st.written ++ tagsOf new ∧
    (tagsOf new).Nodup ∧ ∀ i ∈ tagsOf new, i ∉ st.written

/-- Is index `i` a contour element of `G`? -/
def contourAt (G : Graph) (i : Nat) : Bool :=
  match G[i]? with
  | some e => decide (e.tag = Tag.contour)
  | none => false

/-- The contour indices of `G` not yet in `v`: the termination measure of
both guarded recursions (the visited-contour guard of `CollectNodes` and
the write-once guard of `Write`'s contour recursion). -/
def unvisited (G : Graph) (v : List Nat) : Finset Nat :=
  (Finset.range G.length).filter (fun i => contourAt G i = true ∧ v.contains i = false)

/-- Cardinality of `unvisited`. -/
def mC (G : Graph) (v : List Nat) : Nat := (unvisited G v).card

/-- Well-shapedness of one element: a connector-tagged element carries
in-range source/target references, a contour-tagged element carries an
in-range child list.  This is the model-side rendering of C9's precondition
"every element's tag matches its concrete shape" (in C++ a mismatch makes a
`dynamic_pointer_cast` return null and the subsequent dereference is
undefined behaviour). -/
def elemOk (G : Graph) (e : Elem) : Bool :=
  (if e.tag = Tag.arc ∨ e.tag = Tag.pair then
    match e.conn with
    | some (s, t) => decide (s < G.length) && decide (t < G.length)
    | none => false
  else true) &&
  (if e.tag = Tag.contour then
    match e.children with
    | some ch => ch.all (fun j => decide (j < G.length))
    | none => false
  else true)

/-- Every element of the arena is well-shaped. -/
def ShapeOk (G : Graph) : Prop := ∀ e ∈ G, elemOk G e = true

/-- Every index of a scope list is in range. -/
def ScopeOk (G : Graph) (scope : List Nat) : Prop := ∀ i ∈ scope, i < G.length

/-- Index `j` refers to an existing element that is not Bus-tagged. -/
def NonBusAt (G : Graph) (j : Nat) : Prop :=
  ∃ e, G[j]? = some e ∧ e.tag ≠ Tag.bus

/-! ## String-level helper lemmas -/

theorem toList_append (a b : String) : (a ++ b).toList = a.toList ++ b.toList :=
  String.data_append a b

theorem toList_mk (l : List Char) : (String.mk l).toList = l := rfl

theorem isEmpty_iff_toList (s : String) : s.isEmpty = true ↔ s.toList = [] := by
  rw [String.isEmpty_iff]
  constructor
  · rintro rfl; rfl
  · intro h
    cases s with
    | mk d =>
      cases d with
      | nil => rfl
      | cons c tl => exact List.noConfusion h

theorem english_append (a b : String) :
    isEnglishIdentifier (a ++ b) = (isEnglishIdentifier a && isEnglishIdentifier b) := by
  simp [isEnglishIdentifier, toList_append, List.all_append]

theorem all_or_weaken {l : List Char} {p q : Char → Bool} (h : l.all p = true) :
    l.all (fun c => p c || q c) = true := by
  rw [List.all_eq_true] at h ⊢
  intro c hc
  simp [h c hc]

theorem english_replaceDash (s : String)
    (h : s.toList.all (fun c => isEnglishChar c || c == '-') = true) :
    isEnglishIdentifier (replaceDash s) = true := by
  simp only [isEnglishIdentifier, replaceDash, toList_mk, List.all_map]
  rw [List.all_eq_true] at h ⊢
  intro c hc
  have hc2 := h c hc
  by_cases hd : c = '-'
  · simp only [Function.comp, hd]
    decide
  · simp only [Function.comp, if_neg hd]
    simpa [hd] using hc2

theorem english_generated (elementId : String) (isVar : Bool)
    (hid : elementId.toList.all (fun c => isEnglishChar c || c == '-') = true) :
    isEnglishIdentifier (generateIdentifierForUnresolvedCharacters elementId isVar) = true := by
  unfold generateIdentifierForUnresolvedCharacters
  rw [english_append, english_append]
  rw [english_replaceDash _ hid]
  cases isVar <;> decide

theorem corrected_english (cand eid : String) (isVar : Bool)
    (hc : isEnglishIdentifier cand = true)
    (hid : eid.toList.all (fun c => isEnglishChar c || c == '-') = true) :
    isEnglishIdentifier (generateCorrectedIdentifier cand eid isVar) = true := by
  unfold generateCorrectedIdentifier
  split
  · exact english_generated _ _ hid
  · split
    · exact hc
    · split
      · rw [english_append, hc]
        decide
      · exact hc

/-! ## C3: identifier legality -/

/-- C3 counterexample: the claim "for every element, the resolved system
identifier matches `^[0-9a-zA-Z_]*$`" is false: an Arc-tagged element gets
the alias `##connector_1`, which starts with `#` and fails the pattern. -/
theorem alias_illegal_counterexample :
    (generateSCsIdentifier
        ⟨"1", "nice_raw", "node", Tag.arc, some (0, 1), none, none⟩).identifierForSCs
      = "##connector_1" ∧
    isEnglishIdentifier "##connector_1" = false :=
  ⟨rfl, rfl⟩

/-- C3 (amended): for every element NOT tagged Arc or Pair, whose stable id
consists of characters from `[0-9a-zA-Z_-]`, the Identifier Resolver's
system identifier matches the legality pattern `^[0-9a-zA-Z_]*$`.
(Arc/Pair elements get the `##`-alias, which starts with `#`; and the
`Write` routine of this source emits raw identifiers, not resolved ones.) -/
theorem resolver_identifier_legal (e : Elem)
    (htag : ¬(e.tag = Tag.pair ∨ e.tag = Tag.arc))
    (hid : e.eid.toList.all (fun c => isEnglishChar c || c == '-') = true) :
    isEnglishIdentifier (generateSCsIdentifier e).identifierForSCs = true := by
  simp only [generateSCsIdentifier]
  rw [if_neg htag]
  apply corrected_english _ _ _ _ hid
  split
  · assumption
  · rfl

/-- Witness for `resolver_identifier_legal` at a concrete node element. -/
theorem resolver_identifier_legal_witness :
    isEnglishIdentifier (generateSCsIdentifier
      ⟨"a-b", "Пример", "node/const", Tag.node, none, none, none⟩).identifierForSCs = true :=
  resolver_identifier_legal _ (by decide) (by decide)

/-! ## C5: connector alias -/

/-- C5 counterexample: the claim's clause "a connector never carries a
natural-language main identifier into the output" is false: an Arc whose raw
identifier is natural-language text gets its main identifier set (the code
sets it before the alias override and never clears it). -/
theorem connector_main_identifier_counterexample :
    (generateSCsIdentifier
        ⟨"1", "Пример", "node", Tag.arc, some (0, 1), none, none⟩).mainIdentifier
      = some "Пример" := by
  decide

/-- C5 (amended): for every Arc/Pair element the final system identifier is
the alias `##<connectorPrefix>_<id-with-dashes-replaced>`, overriding steps
1–6, and it does not depend on the raw identifier at all; however, the main
identifier is still recorded when the raw identifier is natural-language
text. -/
theorem connector_alias_override (e : Elem) (h : e.tag = Tag.pair ∨ e.tag = Tag.arc) :
    (generateSCsIdentifier e).identifierForSCs
        = aliasMark ++ connectorPre ++ "_" ++ replaceDash e.eid ∧
    ∀ raw : String,
      (generateSCsIdentifier { e with identifier := raw }).identifierForSCs
        = (generateSCsIdentifier e).identifierForSCs := by
  constructor
  · simp only [generateSCsIdentifier, makeAlias]
    rw [if_pos h]
  · intro raw
    simp only [generateSCsIdentifier, makeAlias]
    rw [if_pos h, if_pos h]

/-- Witness for `connector_alias_override` at a concrete arc element. -/
theorem connector_alias_override_witness :
    (generateSCsIdentifier
        ⟨"a-1", "x", "t", Tag.arc, some (0, 1), none, none⟩).identifierForSCs
        = aliasMark ++ connectorPre ++ "_" ++ replaceDash "a-1" ∧
    ∀ raw : String,
      (generateSCsIdentifier
          { (⟨"a-1", "x", "t", Tag.arc, some (0, 1), none, none⟩ : Elem) with
            identifier := raw }).identifierForSCs
        = (generateSCsIdentifier
            ⟨"a-1", "x", "t", Tag.arc, some (0, 1), none, none⟩).identifierForSCs :=
  connector_alias_override _ (Or.inr rfl)

/-! ## C7: variable prefixing -/

/-- C7 counterexample: an Arc-tagged element whose type carries the variable
marker resolves to the alias `##connector_<id>`, which does not start with
an underscore. -/
theorem variable_connector_counterexample :
    isVariable "node/var" = true ∧
    ¬ ((generateSCsIdentifier
        ⟨"1", "x1", "node/var", Tag.arc, some (0, 1), none, none⟩).identifierForSCs.toList.head?
      = some '_') := by
  constructor
  · decide
  · decide

theorem corrected_var_underscore (cand eid : String) :
    (generateCorrectedIdentifier cand eid true).toList.head? = some '_' := by
  unfold generateCorrectedIdentifier
  by_cases hemp : cand.isEmpty = true
  · rw [if_pos hemp]
    unfold generateIdentifierForUnresolvedCharacters
    rw [if_pos (show (true = true) from rfl)]
    rw [toList_append, List.head?_append, toList_append, List.head?_append]
    rfl
  · rw [if_neg hemp]
    split
    · rename_i hm
      exact absurd ((isEmpty_iff_toList cand).mpr hm) hemp
    · rename_i c tl hm
      split
      · rw [toList_append, List.head?_append]
        rfl
      · rename_i hu
        have hc : c = '_' := by simpa using hu
        rw [hm, hc]
        rfl

/-- C7 (amended): for every element NOT tagged Arc or Pair whose type
descriptor contains the variable marker, the resolved system identifier
starts with an underscore (an empty candidate is synthesized with the
underscore-led variable marker, a non-empty candidate not starting with `_`
has `_` prepended). -/
theorem variable_identifier_underscore (e : Elem)
    (hvar : isVariable e.etype = true)
    (htag : ¬(e.tag = Tag.pair ∨ e.tag = Tag.arc)) :
    (generateSCsIdentifier e).identifierForSCs.toList.head? = some '_' := by
  simp only [generateSCsIdentifier]
  rw [if_neg htag, hvar]
  exact corrected_var_underscore _ _

/-- Witness for `variable_identifier_underscore` at a concrete variable
node whose raw identifier is legal and does not start with `_`. -/
theorem variable_identifier_underscore_witness :
    (generateSCsIdentifier
      ⟨"7", "x1", "node/var", Tag.node, none, none, none⟩).identifierForSCs.toList.head?
      = some '_' :=
  variable_identifier_underscore _ (by decide) (by decide)

/-! ## C6: natural-text routing -/

/-- C6: for every element whose raw identifier fails the legality pattern
but matches the natural-language pattern (and whose stable id consists of
characters from `[0-9a-zA-Z_-]`), the resolver stores the raw identifier
verbatim as the main identifier, and the raw text does not become the
system identifier. -/
theorem natural_text_routing (e : Elem)
    (hEng : isEnglishIdentifier e.identifier = false)
    (hRus : isRussianIdentifier e.identifier = true)
    (hid : e.eid.toList.all (fun c => isEnglishChar c || c == '-') = true) :
    (generateSCsIdentifier e).mainIdentifier = some e.identifier ∧
    (generateSCsIdentifier e).identifierForSCs ≠ e.identifier := by
  have hq : ((generateSCsIdentifier e).identifierForSCs).toList.all
      (fun c => isEnglishChar c || c == '#') = true := by
    simp only [generateSCsIdentifier]
    split
    · unfold makeAlias
      rw [toList_append, toList_append, toList_append,
        List.all_append, List.all_append, List.all_append]
      have hrd : isEnglishIdentifier (replaceDash e.eid) = true := english_replaceDash _ hid
      rw [isEnglishIdentifier] at hrd
      rw [all_or_weaken hrd]
      decide
    · have hcand : (if isEnglishIdentifier e.identifier then e.identifier else "") = "" := by
        rw [if_neg]
        simp [hEng]
      rw [hcand]
      have hcorr : generateCorrectedIdentifier "" e.eid (isVariable e.etype)
          = generateIdentifierForUnresolvedCharacters e.eid (isVariable e.etype) := by
        unfold generateCorrectedIdentifier
        rw [if_pos (show ("".isEmpty = true) from rfl)]
      rw [hcorr]
      have := english_generated e.eid (isVariable e.etype) hid
      rw [isEnglishIdentifier] at this
      exact all_or_weaken this
  constructor
  · simp [generateSCsIdentifier, hEng, hRus]
  · intro hcontra
    obtain ⟨c, hcmem, hcne⟩ := List.all_eq_false.mp hEng
    have hcr : isRussianChar c = true := List.all_eq_true.mp hRus c hcmem
    have hcq : (isEnglishChar c || c == '#') = true := by
      rw [← hcontra] at hcmem
      exact List.all_eq_true.mp hq c hcmem
    rw [Bool.or_eq_true] at hcq
    rcases hcq with hcq | hcq
    · exact hcne hcq
    · have : c = '#' := by simpa using hcq
      rw [this] at hcr
      exact absurd hcr (by decide)

/-- Witness for `natural_text_routing` at a concrete node with Cyrillic raw
identifier. -/
theorem natural_text_routing_witness :
    (generateSCsIdentifier
        ⟨"1", "Пример", "node/const", Tag.node, none, none, none⟩).mainIdentifier
      = some "Пример" ∧
    (generateSCsIdentifier
        ⟨"1", "Пример", "node/const", Tag.node, none, none, none⟩).identifierForSCs
      ≠ "Пример" :=
  natural_text_routing _ (by decide) (by decide) (by decide)

/-! ## The write-once discipline -/

theorem tagsOf_append (a b : List (Option Nat × String)) :
    tagsOf (a ++ b) = tagsOf a ++ tagsOf b :=
  List.filterMap_append a b Prod.fst

theorem catTexts_append (a b : List (Option Nat × String)) :
    catTexts (a ++ b) = catTexts a ++ catTexts b := by
  induction a with
  | nil => rfl
  | cons ev tl ih =>
    show ev.2 ++ catTexts (tl ++ b) = ev.2 ++ catTexts tl ++ catTexts b
    rw [ih, String.append_assoc]

theorem stepSpec_refl (st : St) : StepSpec st st :=
  ⟨[], by simp, by simp [tagsOf], by simp [tagsOf], by simp [tagsOf]⟩

theorem stepSpec_trans {a b c : St} (h1 : StepSpec a b) (h2 : StepSpec b c) :
    StepSpec a c := by
  obtain ⟨n1, he1, hw1, hn1, hf1⟩ := h1
  obtain ⟨n2, he2, hw2, hn2, hf2⟩ := h2
  refine ⟨n1 ++ n2, ?_, ?_, ?_, ?_⟩
  · rw [he2, he1, List.append_assoc]
  · rw [hw2, hw1, tagsOf_append, List.append_assoc]
  · rw [tagsOf_append, List.nodup_append]
    refine ⟨hn1, hn2, fun i hi1 hi2 => ?_⟩
    exact hf2 i hi2 (by rw [hw1]; exact List.mem_append.mpr (Or.inr hi1))
  · rw [tagsOf_append]
    intro i hi
    rcases List.mem_append.mp hi with hi | hi
    · exact hf1 i hi
    · intro hmem
      exact hf2 i hi (by rw [hw1]; exact List.mem_append.mpr (Or.inl hmem))

theorem stepSpec_markWrite (st : St) (i : Nat) (s : String) (h : i ∉ st.written) :
    StepSpec st (markWrite st i s) :=
  ⟨[(some i, s)], rfl, rfl, by simp [tagsOf], by simpa [tagsOf] using h⟩

theorem stepSpec_emit (st : St) (s : String) : StepSpec st (emit st s) :=
  ⟨[(none, s)], rfl, by simp [tagsOf, emit], by simp [tagsOf], by simp [tagsOf]⟩

theorem writeNodes_spec (G : Graph) (cN : String → String) (depth : Nat) :
    ∀ l st st', writeNodes G cN depth l st = .ok st' → StepSpec st st' := by
  intro l
  induction l with
  | nil =>
    intro st st' h
    simp only [writeNodes] at h
    injection h with h
    subst h
    exact stepSpec_refl _
  | cons i rest ih =>
    intro st st' h
    cases hG : G[i]? with
    | none =>
      simp only [writeNodes, hG] at h
      exact Except.noConfusion h
    | some e =>
      simp only [writeNodes, hG] at h
      by_cases hw : st.written.contains i = true
      · rw [if_pos hw] at h
        exact ih st st' h
      · rw [if_neg hw] at h
        exact stepSpec_trans (stepSpec_markWrite st i _ (by simpa using hw)) (ih _ st' h)

theorem writeArcs_spec (G : Graph) (cC : String → String) (depth : Nat)
    (scope complexA attrA : List Nat) :
    ∀ l st st', writeArcs G cC depth scope complexA attrA l st = .ok st' → StepSpec st st' := by
  intro l
  induction l with
  | nil =>
    intro st st' h
    simp only [writeArcs] at h
    injection h with h
    subst h
    exact stepSpec_refl _
  | cons i rest ih =>
    intro st st' h
    cases hG : G[i]? with
    | none =>
      simp only [writeArcs, hG] at h
      exact Except.noConfusion h
    | some e =>
      simp only [writeArcs, hG] at h
      by_cases htag : e.tag = Tag.arc ∨ e.tag = Tag.pair
      · rw [if_pos htag] at h
        by_cases hw : st.written.contains i = true
        · rw [if_pos hw] at h
          exact ih st st' h
        · rw [if_neg hw] at h
          by_cases ha : attrA.contains i = true
          · rw [if_pos ha] at h
            exact ih st st' h
          · rw [if_neg ha] at h
            cases hc : e.conn with
            | none =>
              simp only [hc] at h
              exact Except.noConfusion h
            | some p =>
              obtain ⟨s, t⟩ := p
              simp only [hc] at h
              cases hs : G[s]? with
              | none =>
                simp only [hs] at h
                exact Except.noConfusion h
              | some se =>
                cases ht : G[t]? with
                | none =>
                  simp only [hs, ht] at h
                  exact Except.noConfusion h
                | some te =>
                  simp only [hs, ht] at h
                  have hfresh : i ∉ st.written := by simpa using hw
                  by_cases hcx : complexA.contains i = true
                  · rw [if_pos hcx] at h
                    cases hf : findIncident G i scope with
                    | error m =>
                      simp only [hf] at h
                      exact Except.noConfusion h
                    | ok o =>
                      cases o with
                      | none =>
                        simp only [hf] at h
                        exact stepSpec_trans (stepSpec_markWrite st i _ hfresh) (ih _ st' h)
                      | some a =>
                        simp only [hf] at h
                        exact stepSpec_trans (stepSpec_markWrite st i _ hfresh) (ih _ st' h)
                  · rw [if_neg hcx] at h
                    exact stepSpec_trans (stepSpec_markWrite st i _ hfresh) (ih _ st' h)
      · rw [if_neg htag] at h
        exact ih st st' h

theorem writeContoursAux_spec (go : List Nat → Nat → St → Except String St)
    (G : Graph) (depth : Nat)
    (hgo : ∀ sc d s s', go sc d s = .ok s' → StepSpec s s') :
    ∀ l st st', writeContoursAux go G depth l st = .ok st' → StepSpec st st' := by
  intro l
  induction l with
  | nil =>
    intro st st' h
    simp only [writeContoursAux] at h
    injection h with h
    subst h
    exact stepSpec_refl _
  | cons i rest ih =>
    intro st st' h
    cases hG : G[i]? with
    | none =>
      simp only [writeContoursAux, hG] at h
      exact Except.noConfusion h
    | some e =>
      simp only [writeContoursAux, hG] at h
      by_cases htag : e.tag = Tag.contour
      · rw [if_pos htag] at h
        by_cases hw : st.written.contains i = true
        · rw [if_pos hw] at h
          exact ih st st' h
        · rw [if_neg hw] at h
          cases hch : e.children with
          | none =>
            simp only [hch] at h
            exact Except.noConfusion h
          | some ch =>
            simp only [hch] at h
            cases hrec : go ch (depth + 1) (markWrite st i (tabs depth ++ identOrFallback "contour_" e ++ " = [*\n")) with
            | error m =>
              rw [hrec] at h
              exact Except.noConfusion h
            | ok st2 =>
              rw [hrec] at h
              have s1 := stepSpec_markWrite st i
                (tabs depth ++ identOrFallback "contour_" e ++ " = [*\n") (by simpa using hw)
              have s2 := hgo _ _ _ _ hrec
              have s3 := stepSpec_emit st2 (tabs depth ++ "*];;\n\n")
              exact stepSpec_trans s1 (stepSpec_trans s2 (stepSpec_trans s3 (ih _ st' h)))
      · rw [if_neg htag] at h
        exact ih st st' h

theorem write_spec (G : Graph) (cN cC : String → String) :
    ∀ fuel scope depth st st', write G cN cC fuel scope depth st = .ok st' → StepSpec st st' := by
  intro fuel
  induction fuel with
  | zero =>
    intro scope depth st st' h
    simp only [write] at h
    exact Except.noConfusion h
  | succ fuel ih =>
    intro scope depth st st' h
    simp only [write] at h
    cases h1 : collectNodes G (G.length + 1) scope ([], []) with
    | error m =>
      rw [h1] at h
      exact Except.noConfusion h
    | ok p =>
      obtain ⟨allNodes, vis⟩ := p
      simp only [h1] at h
      cases h2 : writeNodes G cN depth allNodes st with
      | error m =>
        rw [h2] at h
        exact Except.noConfusion h
      | ok st1 =>
        simp only [h2] at h
        cases h3 : classifyArcs G scope ([], []) with
        | error m =>
          rw [h3] at h
          exact Except.noConfusion h
        | ok q =>
          obtain ⟨cx, aa⟩ := q
          simp only [h3] at h
          cases h4 : writeArcs G cC depth scope cx aa scope st1 with
          | error m =>
            rw [h4] at h
            exact Except.noConfusion h
          | ok st2 =>
            simp only [h4] at h
            have s1 := writeNodes_spec G cN depth allNodes st st1 h2
            have s2 := writeArcs_spec G cC depth scope cx aa scope st1 st2 h4
            have s3 := writeContoursAux_spec _ G depth
              (fun sc d s s' hh => ih sc d s s' hh) scope st2 st' h
            exact stepSpec_trans (stepSpec_trans s1 s2) s3

/-! ## C1: write-once emission -/

/-- C1: each element is emitted at most once per top-level `Write`
invocation: the events added by a call have pairwise-distinct element tags,
none of which was already in the shared write-once set, and all of which are
in the set afterwards — so an element already present in the set is skipped
by every later emission step, regardless of how many contour paths reach
it. -/
theorem write_write_once (G : Graph) (cN cC : String → String) (fuel depth : Nat)
    (scope : List Nat) (st st' : St)
    (h : write G cN cC fuel scope depth st = .ok st') :
    ∃ new, st'.events = st.events ++ new ∧ (tagsOf new).Nodup ∧
      ∀ i ∈ tagsOf new, i ∉ st.written ∧ i ∈ st'.written := by
  obtain ⟨new, he, hw, hn, hf⟩ := write_spec G cN cC fuel scope depth st st' h
  exact ⟨new, he, hn, fun i hi =>
    ⟨hf i hi, by rw [hw]; exact List.mem_append.mpr (Or.inr hi)⟩⟩

/-- Witness for `write_write_once`: a one-node graph, fresh state. -/
theorem write_write_once_witness :
    ∃ new, (⟨[0], [(some 0, "n1\n\t<- node_;;\n\n")]⟩ : St).events
        = (⟨[], []⟩ : St).events ++ new ∧
      (tagsOf new).Nodup ∧
      ∀ i ∈ tagsOf new, i ∉ (⟨[], []⟩ : St).written ∧
        i ∈ (⟨[0], [(some 0, "n1\n\t<- node_;;\n\n")]⟩ : St).written :=
  write_write_once [⟨"1", "n1", "nt", Tag.node, none, none, none⟩]
    (fun _ => "") (fun _ => "") 1 0 [0] ⟨[], []⟩ _ rfl

/-! ## C10: append-only buffer, monotone write-once set -/

/-- C10: `Write` only appends to the output buffer (the buffer content
before the call is a prefix of the content after it) and never removes an
element from the write-once set. -/
theorem write_append_only (G : Graph) (cN cC : String → String) (fuel depth : Nat)
    (scope : List Nat) (st st' : St)
    (h : write G cN cC fuel scope depth st = .ok st') :
    (∃ t, outText st' = outText st ++ t) ∧ ∀ i ∈ st.written, i ∈ st'.written := by
  obtain ⟨new, he, hw, _, _⟩ := write_spec G cN cC fuel scope depth st st' h
  constructor
  · exact ⟨catTexts new, by rw [outText, outText, he, catTexts_append]⟩
  · intro i hi
    rw [hw]
    exact List.mem_append.mpr (Or.inl hi)

/-- Witness for `write_append_only`: a one-node graph over a non-empty
initial state. -/
theorem write_append_only_witness :
    (∃ t, outText ⟨[5, 0], [(some 5, "x"), (some 0, "n1\n\t<- node_;;\n\n")]⟩
        = outText ⟨[5], [(some 5, "x")]⟩ ++ t) ∧
    ∀ i ∈ (⟨[5], [(some 5, "x")]⟩ : St).written,
      i ∈ (⟨[5, 0], [(some 5, "x"), (some 0, "n1\n\t<- node_;;\n\n")]⟩ : St).written :=
  write_append_only [⟨"1", "n1", "nt", Tag.node, none, none, none⟩]
    (fun _ => "") (fun _ => "") 1 0 [0] ⟨[5], [(some 5, "x")]⟩
    ⟨[5, 0], [(some 5, "x"), (some 0, "n1\n\t<- node_;;\n\n")]⟩ rfl

/-! ## Totality: the measure on unvisited contours -/

theorem mC_le (G : Graph) (v : List Nat) : mC G v ≤ G.length :=
  le_trans (Finset.card_filter_le _ _) (le_of_eq (Finset.card_range _))

theorem unvisited_antitone (G : Graph) {v v' : List Nat}
    (h : ∀ j, j ∈ v → j ∈ v') : unvisited G v' ⊆ unvisited G v := by
  intro i hi
  rw [unvisited, Finset.mem_filter] at hi ⊢
  refine ⟨hi.1, hi.2.1, ?_⟩
  by_cases hvc : i ∈ v
  · have h1 : v'.contains i = true := by simpa using h i hvc
    rw [h1] at hi
    exact absurd hi.2.2 (by simp)
  · simpa using hvc

theorem mC_mono (G : Graph) (v v' : List Nat)
    (h : ∀ j, j ∈ v → j ∈ v') : mC G v' ≤ mC G v :=
  Finset.card_le_card (unvisited_antitone G h)

theorem mC_lt_of_mem (G : Graph) (v v' : List Nat)
    (hsub : ∀ j, j ∈ v → j ∈ v') {i : Nat}
    (hi : i < G.length) (hc : contourAt G i = true) (hnv : i ∉ v) (hv' : i ∈ v') :
    mC G v' < mC G v := by
  apply Finset.card_lt_card
  rw [Finset.ssubset_iff_of_subset (unvisited_antitone G hsub)]
  refine ⟨i, ?_, ?_⟩
  · rw [unvisited, Finset.mem_filter]
    exact ⟨Finset.mem_range.mpr hi, hc, by simpa using hnv⟩
  · intro hmem
    rw [unvisited, Finset.mem_filter] at hmem
    have : v'.contains i = true := by simpa using hv'
    rw [this] at hmem
    exact absurd hmem.2.2 (by simp)

/-! ## Shape-extraction helpers -/

theorem get?_of_lt {G : Graph} {i : Nat} (h : i < G.length) :
    ∃ e, G[i]? = some e ∧ e ∈ G :=
  ⟨G[i], List.getElem?_eq_getElem h, List.getElem_mem h⟩

theorem mem_of_get? {G : Graph} {i : Nat} {e : Elem} (h : G[i]? = some e) : e ∈ G := by
  obtain ⟨hlt, he⟩ := List.getElem?_eq_some.mp h
  rw [← he]
  exact List.getElem_mem hlt

theorem elemOk_conn {G : Graph} {e : Elem} (h : elemOk G e = true)
    (ht : e.tag = Tag.arc ∨ e.tag = Tag.pair) :
    ∃ s t, e.conn = some (s, t) ∧ s < G.length ∧ t < G.length := by
  rw [elemOk, Bool.and_eq_true] at h
  have h1 := h.1
  rw [if_pos ht] at h1
  cases hc : e.conn with
  | none =>
    rw [hc] at h1
    exact Bool.noConfusion h1
  | some p =>
    obtain ⟨s, t⟩ := p
    rw [hc] at h1
    rw [Bool.and_eq_true, decide_eq_true_iff, decide_eq_true_iff] at h1
    exact ⟨s, t, rfl, h1⟩

theorem elemOk_children {G : Graph} {e : Elem} (h : elemOk G e = true)
    (ht : e.tag = Tag.contour) :
    ∃ ch, e.children = some ch ∧ ∀ j ∈ ch, j < G.length := by
  rw [elemOk, Bool.and_eq_true] at h
  have h2 := h.2
  rw [if_pos ht] at h2
  cases hc : e.children with
  | none =>
    rw [hc] at h2
    exact Bool.noConfusion h2
  | some ch =>
    rw [hc] at h2
    rw [List.all_eq_true] at h2
    exact ⟨ch, rfl, fun j hj => by simpa using h2 j hj⟩

/-! ## Totality of the serializer steps -/

theorem collect_total (G : Graph) (hG : ShapeOk G) :
    ∀ fuel scope nodes visited, ScopeOk G scope → mC G visited < fuel →
      ∃ nodes2 visited2,
        collectNodes G fuel scope (nodes, visited) = .ok (nodes2, visited2) ∧
        (∀ j, j ∈ visited → j ∈ visited2) ∧
        (∀ i ∈ nodes2, i ∈ nodes ∨ ∃ e, G[i]? = some e ∧ e.tag = Tag.node) := by
  intro fuel
  induction fuel with
  | zero =>
    intro scope nodes visited _ hm
    exact absurd hm (Nat.not_lt_zero _)
  | succ fuel ihf =>
    intro scope
    induction scope with
    | nil =>
      intro nodes visited _ _
      exact ⟨nodes, visited, rfl, fun j hj => hj, fun i hi => Or.inl hi⟩
    | cons i rest ihr =>
      intro nodes visited hscope hm
      have htl : ScopeOk G rest := fun j hj => hscope j (List.mem_cons_of_mem _ hj)
      have hi : i < G.length := hscope i (List.mem_cons_self i rest)
      obtain ⟨e, hGi, hmemG⟩ := get?_of_lt hi
      simp only [collectNodes, collectNodesAux, hGi]
      by_cases ht : e.tag = Tag.node
      · rw [if_pos ht]
        obtain ⟨n2, v2, heq, hv, hn⟩ :=
          ihr (if nodes.contains i = true then nodes else nodes ++ [i]) visited htl hm
        rw [collectNodes] at heq
        refine ⟨n2, v2, heq, hv, fun k hk => ?_⟩
        rcases hn k hk with hk2 | hk2
        · by_cases hc : nodes.contains i = true
          · rw [if_pos hc] at hk2
            exact Or.inl hk2
          · rw [if_neg hc] at hk2
            rcases List.mem_append.mp hk2 with hk3 | hk3
            · exact Or.inl hk3
            · have hk4 : k = i := by simpa using hk3
              subst hk4
              exact Or.inr ⟨e, hGi, ht⟩
        · exact Or.inr hk2
      · rw [if_neg ht]
        by_cases htc : e.tag = Tag.contour
        · rw [if_pos htc]
          by_cases hvc : visited.contains i = true
          · rw [if_pos hvc]
            obtain ⟨n2, v2, heq, hv, hn⟩ := ihr nodes visited htl hm
            rw [collectNodes] at heq
            exact ⟨n2, v2, heq, hv, hn⟩
          · rw [if_neg hvc]
            obtain ⟨ch, hch, hchOk⟩ := elemOk_children (hG e hmemG) htc
            simp only [hch]
            have hcA : contourAt G i = true := by
              simp [contourAt, hGi, htc]
            have hmc2 : mC G (i :: visited) < fuel := by
              have hlt := mC_lt_of_mem G visited (i :: visited)
                (fun j hj => List.mem_cons_of_mem _ hj) hi hcA
                (by simpa using hvc) (List.mem_cons_self _ _)
              omega
            obtain ⟨n2, v2, heq2, hv2, hn2⟩ := ihf ch nodes (i :: visited) hchOk hmc2
            simp only [heq2]
            have hmc3 : mC G v2 < fuel + 1 := by
              have := mC_mono G (i :: visited) v2 hv2
              omega
            obtain ⟨n3, v3, heq3, hv3, hn3⟩ := ihr n2 v2 htl hmc3
            rw [collectNodes] at heq3
            refine ⟨n3, v3, heq3, ?_, ?_⟩
            · intro j hj
              exact hv3 j (hv2 j (List.mem_cons_of_mem _ hj))
            · intro k hk
              rcases hn3 k hk with hk2 | hk2
              · exact hn2 k hk2
              · exact Or.inr hk2
        · rw [if_neg htc]
          obtain ⟨n2, v2, heq, hv, hn⟩ := ihr nodes visited htl hm
          rw [collectNodes] at heq
          exact ⟨n2, v2, heq, hv, hn⟩

theorem writeNodes_total (G : Graph) (cN : String → String) (depth : Nat) :
    ∀ l st, (∀ i ∈ l, ∃ e, G[i]? = some e) →
      ∃ st', writeNodes G cN depth l st = .ok st' := by
  intro l
  induction l with
  | nil =>
    intro st _
    exact ⟨st, rfl⟩
  | cons i rest ih =>
    intro st hv
    obtain ⟨e, hGi⟩ := hv i (List.mem_cons_self i rest)
    simp only [writeNodes, hGi]
    by_cases hw : st.written.contains i = true
    · rw [if_pos hw]
      exact ih st (fun j hj => hv j (List.mem_cons_of_mem _ hj))
    · rw [if_neg hw]
      exact ih _ (fun j hj => hv j (List.mem_cons_of_mem _ hj))

theorem classify_total (G : Graph) (hG : ShapeOk G) :
    ∀ l cx aa, ScopeOk G l → ∃ out, classifyArcs G l (cx, aa) = .ok out := by
  intro l
  induction l with
  | nil =>
    intro cx aa _
    exact ⟨(cx, aa), rfl⟩
  | cons i rest ih =>
    intro cx aa hsc
    have htl : ScopeOk G rest := fun j hj => hsc j (List.mem_cons_of_mem _ hj)
    have hi : i < G.length := hsc i (List.mem_cons_self i rest)
    obtain ⟨e, hGi, hmemG⟩ := get?_of_lt hi
    simp only [classifyArcs, hGi]
    by_cases ht : e.tag = Tag.arc ∨ e.tag = Tag.pair
    · rw [if_pos ht]
      obtain ⟨s, t, hc, _, hlt⟩ := elemOk_conn (hG e hmemG) ht
      obtain ⟨te, hGt, _⟩ := get?_of_lt hlt
      simp only [hc, hGt]
      by_cases htt : te.tag = Tag.arc ∨ te.tag = Tag.pair
      · rw [if_pos htt]
        exact ih _ _ htl
      · rw [if_neg htt]
        exact ih cx aa htl
    · rw [if_neg ht]
      exact ih cx aa htl

theorem findIncident_total (G : Graph) (hG : ShapeOk G) (selfIdx : Nat) :
    ∀ l, ScopeOk G l → ∃ r, findIncident G selfIdx l = .ok r := by
  intro l
  induction l with
  | nil => exact fun _ => ⟨none, rfl⟩
  | cons i rest ih =>
    intro hsc
    have htl : ScopeOk G rest := fun j hj => hsc j (List.mem_cons_of_mem _ hj)
    have hi : i < G.length := hsc i (List.mem_cons_self i rest)
    obtain ⟨e, hGi, hmemG⟩ := get?_of_lt hi
    simp only [findIncident, hGi]
    by_cases ht : e.tag = Tag.arc ∨ e.tag = Tag.pair
    · rw [if_pos ht]
      obtain ⟨s, t, hc, hslt, _⟩ := elemOk_conn (hG e hmemG) ht
      obtain ⟨se, hGs, _⟩ := get?_of_lt hslt
      simp only [hc]
      by_cases hts : t = selfIdx
      · rw [if_pos hts]
        simp only [hGs]
        exact ⟨some (identOrFallback "node_" se), rfl⟩
      · rw [if_neg hts]
        exact ih htl
    · rw [if_neg ht]
      exact ih htl

theorem writeArcs_total (G : Graph) (cC : String → String) (depth : Nat)
    (scope complexA attrA : List Nat) (hG : ShapeOk G) (hscope : ScopeOk G scope) :
    ∀ l st, ScopeOk G l →
      ∃ st', writeArcs G cC depth scope complexA attrA l st = .ok st' := by
  intro l
  induction l with
  | nil =>
    intro st _
    exact ⟨st, rfl⟩
  | cons i rest ih =>
    intro st hsc
    have htl : ScopeOk G rest := fun j hj => hsc j (List.mem_cons_of_mem _ hj)
    have hi : i < G.length := hsc i (List.mem_cons_self i rest)
    obtain ⟨e, hGi, hmemG⟩ := get?_of_lt hi
    simp only [writeArcs, hGi]
    by_cases ht : e.tag = Tag.arc ∨ e.tag = Tag.pair
    · rw [if_pos ht]
      by_cases hw : st.written.contains i = true
      · rw [if_pos hw]
        exact ih st htl
      · rw [if_neg hw]
        by_cases ha : attrA.contains i = true
        · rw [if_pos ha]
          exact ih st htl
        · rw [if_neg ha]
          obtain ⟨s, t, hc, hslt, htlt⟩ := elemOk_conn (hG e hmemG) ht
          obtain ⟨se, hGs, _⟩ := get?_of_lt hslt
          obtain ⟨te, hGt, _⟩ := get?_of_lt htlt
          simp only [hc, hGs, hGt]
          by_cases hcx : complexA.contains i = true
          · rw [if_pos hcx]
            obtain ⟨r, hr⟩ := findIncident_total G hG i scope hscope
            simp only [hr]
            cases r with
            | none => exact ih _ htl
            | some a => exact ih _ htl
          · rw [if_neg hcx]
            exact ih _ htl
    · rw [if_neg ht]
      exact ih st htl

theorem writeContoursAux_total (G : Graph) (fuel : Nat)
    (go : List Nat → Nat → St → Except String St) (depth : Nat)
    (hG : ShapeOk G)
    (hgoSpec : ∀ sc d s s', go sc d s = .ok s' → StepSpec s s')
    (hgoTotal : ∀ sc d s, ScopeOk G sc → mC G s.written < fuel →
      ∃ s', go sc d s = .ok s') :
    ∀ l st, ScopeOk G l → mC G st.written < fuel + 1 →
      ∃ st', writeContoursAux go G depth l st = .ok st' := by
  intro l
  induction l with
  | nil =>
    intro st _ _
    exact ⟨st, rfl⟩
  | cons i rest ih =>
    intro st hsc hm
    have htl : ScopeOk G rest := fun j hj => hsc j (List.mem_cons_of_mem _ hj)
    have hi : i < G.length := hsc i (List.mem_cons_self i rest)
    obtain ⟨e, hGi, hmemG⟩ := get?_of_lt hi
    simp only [writeContoursAux, hGi]
    by_cases ht : e.tag = Tag.contour
    · rw [if_pos ht]
      by_cases hw : st.written.contains i = true
      · rw [if_pos hw]
        exact ih st htl hm
      · rw [if_neg hw]
        obtain ⟨ch, hch, hchOk⟩ := elemOk_children (hG e hmemG) ht
        simp only [hch]
        have hcA : contourAt G i = true := by
          simp [contourAt, hGi, ht]
        have hm1 : mC G (st.written ++ [i]) < fuel := by
          have hlt := mC_lt_of_mem G st.written (st.written ++ [i])
            (fun j hj => List.mem_append.mpr (Or.inl hj)) hi hcA
            (by simpa using hw) (List.mem_append.mpr (Or.inr (List.mem_singleton.mpr rfl)))
          omega
        obtain ⟨st2, hst2⟩ := hgoTotal ch (depth + 1)
          (markWrite st i (tabs depth ++ identOrFallback "contour_" e ++ " = [*\n"))
          hchOk hm1
        simp only [hst2]
        have hm2 : mC G (emit st2 (tabs depth ++ "*];;\n\n")).written < fuel + 1 := by
          obtain ⟨new, _, hwr, _, _⟩ := hgoSpec _ _ _ _ hst2
          have hle : mC G st2.written ≤ mC G (st.written ++ [i]) := by
            apply mC_mono
            intro j hj
            rw [hwr]
            exact List.mem_append.mpr (Or.inl hj)
          show mC G st2.written < fuel + 1
          omega
        exact ih _ htl hm2
    · rw [if_neg ht]
      exact ih st htl hm

theorem write_total_aux (G : Graph) (cN cC : String → String) (hG : ShapeOk G) :
    ∀ fuel scope depth st, ScopeOk G scope → mC G st.written < fuel →
      ∃ st', write G cN cC fuel scope depth st = .ok st' := by
  intro fuel
  induction fuel with
  | zero =>
    intro scope depth st _ hm
    exact absurd hm (Nat.not_lt_zero _)
  | succ fuel ih =>
    intro scope depth st hsc hm
    have hmc0 : mC G ([] : List Nat) < G.length + 1 := by
      have := mC_le G []
      omega
    obtain ⟨allNodes, vis, hcoleq, _, hnodes⟩ :=
      collect_total G hG (G.length + 1) scope [] [] hsc hmc0
    simp only [write, hcoleq]
    obtain ⟨st1, hst1⟩ := writeNodes_total G cN depth allNodes st (fun i hi => by
      rcases hnodes i hi with h | ⟨e, hGe, _⟩
      · exact absurd h (List.not_mem_nil i)
      · exact ⟨e, hGe⟩)
    simp only [hst1]
    obtain ⟨out, hclass⟩ := classify_total G hG scope [] [] hsc
    obtain ⟨cx, aa⟩ := out
    simp only [hclass]
    obtain ⟨st2, hst2⟩ := writeArcs_total G cC depth scope cx aa hG hsc scope st1 hsc
    simp only [hst2]
    have hm2 : mC G st2.written < fuel + 1 := by
      obtain ⟨n1, _, hw1, _, _⟩ := writeNodes_spec G cN depth allNodes st st1 hst1
      obtain ⟨n2, _, hw2, _, _⟩ := writeArcs_spec G cC depth scope cx aa scope st1 st2 hst2
      have : mC G st2.written ≤ mC G st.written := by
        apply mC_mono
        intro j hj
        rw [hw2, hw1]
        exact List.mem_append.mpr (Or.inl (List.mem_append.mpr (Or.inl hj)))
      omega
    exact writeContoursAux_total G fuel (fun sc d s => write G cN cC fuel sc d s) depth hG
      (fun sc d s s' hh => write_spec G cN cC fuel sc d s s' hh)
      (fun sc d s hsc2 hm3 => ih sc d s hsc2 hm3)
      scope st2 hsc hm2

/-! ## C9: no reachable error branch -/

/-- C9: under the precondition that every element's tag matches its concrete
shape (`ShapeOk`, with in-range references) and that the scope references
existing elements, `Write` completes without any error for every input
graph: every missing-data condition takes its deterministic fallback, so no
error branch is reachable.  The fuel hypothesis is the embedding-side
rendering of the guarded contour recursion: any fuel beyond the arena size
is enough. -/
theorem write_total (G : Graph) (cN cC : String → String) (fuel depth : Nat)
    (scope : List Nat) (st : St)
    (hG : ShapeOk G) (hs : ScopeOk G scope) (hf : G.length < fuel) :
    ∃ st', write G cN cC fuel scope depth st = .ok st' :=
  write_total_aux G cN cC hG fuel scope depth st hs
    (lt_of_le_of_lt (mC_le G st.written) hf)

/-- Witness for `write_total`: a two-element graph (a contour containing a
node). -/
theorem write_total_witness :
    ∃ st', write [⟨"1", "n1", "nt", Tag.node, none, none, none⟩,
        ⟨"2", "", "ct", Tag.contour, none, some [0], none⟩]
      (fun _ => "") (fun _ => "") 3 [1] 0 ⟨[], []⟩ = .ok st' :=
  write_total _ (fun _ => "") (fun _ => "") 3 0 [1] ⟨[], []⟩
    (by simp only [ShapeOk]; decide) (by simp only [ScopeOk]; decide) (by decide)

/-! ## Which elements can be emitted at all -/

theorem tagsOf_markWrite (st : St) (i : Nat) (s : String) :
    tagsOf (markWrite st i s).events = tagsOf st.events ++ [i] := by
  simp [markWrite, tagsOf]

theorem tagsOf_emit (st : St) (s : String) :
    tagsOf (emit st s).events = tagsOf st.events := by
  simp [emit, tagsOf]

theorem collect_spec_nodes (G : Graph) :
    ∀ fuel scope nodes visited nodes2 visited2,
      collectNodes G fuel scope (nodes, visited) = .ok (nodes2, visited2) →
      ∀ i ∈ nodes2, i ∈ nodes ∨ ∃ e, G[i]? = some e ∧ e.tag = Tag.node := by
  intro fuel
  induction fuel with
  | zero =>
    intro scope nodes visited n2 v2 h
    simp only [collectNodes] at h
    exact Except.noConfusion h
  | succ fuel ihf =>
    intro scope
    induction scope with
    | nil =>
      intro nodes visited n2 v2 h
      simp only [collectNodes, collectNodesAux] at h
      injection h with h
      injection h with h1 h2
      subst h1
      exact fun i hi => Or.inl hi
    | cons i rest ihr =>
      intro nodes visited n2 v2 h
      cases hG : G[i]? with
      | none =>
        simp only [collectNodes, collectNodesAux, hG] at h
        exact Except.noConfusion h
      | some e =>
        simp only [collectNodes, collectNodesAux, hG] at h
        by_cases ht : e.tag = Tag.node
        · rw [if_pos ht] at h
          have h' : collectNodes G (fuel + 1) rest
              ((if nodes.contains i = true then nodes else nodes ++ [i]), visited)
              = .ok (n2, v2) := by
            rw [collectNodes]
            exact h
          have := ihr (if nodes.contains i = true then nodes else nodes ++ [i])
            visited n2 v2 h'
          intro k hk
          rcases this k hk with hk2 | hk2
          · by_cases hc : nodes.contains i = true
            · rw [if_pos hc] at hk2
              exact Or.inl hk2
            · rw [if_neg hc] at hk2
              rcases List.mem_append.mp hk2 with hk3 | hk3
              · exact Or.inl hk3
              · have hk4 : k = i := by simpa using hk3
                subst hk4
                exact Or.inr ⟨e, hG, ht⟩
          · exact Or.inr hk2
        · rw [if_neg ht] at h
          by_cases htc : e.tag = Tag.contour
          · rw [if_pos htc] at h
            by_cases hvc : visited.contains i = true
            · rw [if_pos hvc] at h
              exact ihr nodes visited n2 v2 (by rw [collectNodes]; exact h)
            · rw [if_neg hvc] at h
              cases hch : e.children with
              | none =>
                simp only [hch] at h
                exact Except.noConfusion h
              | some ch =>
                simp only [hch] at h
                cases hrec : collectNodes G fuel ch (nodes, i :: visited) with
                | error m =>
                  rw [hrec] at h
                  exact Except.noConfusion h
                | ok acc2 =>
                  obtain ⟨na, va⟩ := acc2
                  rw [hrec] at h
                  have h1 := ihf ch nodes (i :: visited) na va hrec
                  have h2 := ihr na va n2 v2 (by rw [collectNodes]; exact h)
                  intro k hk
                  rcases h2 k hk with hk2 | hk2
                  · exact h1 k hk2
                  · exact Or.inr hk2
          · rw [if_neg htc] at h
            exact ihr nodes visited n2 v2 (by rw [collectNodes]; exact h)

theorem writeNodes_new_tags (G : Graph) (cN : String → String) (depth : Nat) :
    ∀ l st st', writeNodes G cN depth l st = .ok st' →
      ∃ new, st'.events = st.events ++ new ∧ ∀ j ∈ tagsOf new, j ∈ l := by
  intro l
  induction l with
  | nil =>
    intro st st' h
    simp only [writeNodes] at h
    injection h with h
    subst h
    exact ⟨[], by simp, by simp [tagsOf]⟩
  | cons i rest ih =>
    intro st st' h
    cases hG : G[i]? with
    | none =>
      simp only [writeNodes, hG] at h
      exact Except.noConfusion h
    | some e =>
      simp only [writeNodes, hG] at h
      by_cases hw : st.written.contains i = true
      · rw [if_pos hw] at h
        obtain ⟨new, he, hj⟩ := ih st st' h
        exact ⟨new, he, fun j hjn => List.mem_cons_of_mem _ (hj j hjn)⟩
      · rw [if_neg hw] at h
        have hout : ∀ text, writeNodes G cN depth rest (markWrite st i text) = .ok st' →
            ∃ new, st'.events = st.events ++ new ∧ ∀ j ∈ tagsOf new, j ∈ i :: rest := by
          intro text hrec
          obtain ⟨new, he, hj⟩ := ih _ st' hrec
          refine ⟨(some i, text) :: new, ?_, ?_⟩
          · rw [he]
            simp [markWrite, List.append_assoc]
          · intro j hjn
            rw [show tagsOf ((some i, text) :: new) = i :: tagsOf new from rfl] at hjn
            rcases List.mem_cons.mp hjn with hjn | hjn
            · rw [hjn]
              exact List.mem_cons_self _ _
            · exact List.mem_cons_of_mem _ (hj j hjn)
        exact hout _ h

theorem writeArcs_new_tags (G : Graph) (cC : String → String) (depth : Nat)
    (scope complexA attrA : List Nat) :
    ∀ l st st', writeArcs G cC depth scope complexA attrA l st = .ok st' →
      ∃ new, st'.events = st.events ++ new ∧
        ∀ j ∈ tagsOf new, ∃ e, G[j]? = some e ∧ (e.tag = Tag.arc ∨ e.tag = Tag.pair) := by
  intro l
  induction l with
  | nil =>
    intro st st' h
    simp only [writeArcs] at h
    injection h with h
    subst h
    exact ⟨[], by simp, by simp [tagsOf]⟩
  | cons i rest ih =>
    intro st st' h
    cases hG : G[i]? with
    | none =>
      simp only [writeArcs, hG] at h
      exact Except.noConfusion h
    | some e =>
      simp only [writeArcs, hG] at h
      by_cases htag : e.tag = Tag.arc ∨ e.tag = Tag.pair
      · rw [if_pos htag] at h
        by_cases hw : st.written.contains i = true
        · rw [if_pos hw] at h
          exact ih st st' h
        · rw [if_neg hw] at h
          by_cases ha : attrA.contains i = true
          · rw [if_pos ha] at h
            exact ih st st' h
          · rw [if_neg ha] at h
            cases hc : e.conn with
            | none =>
              simp only [hc] at h
              exact Except.noConfusion h
            | some p =>
              obtain ⟨s, t⟩ := p
              simp only [hc] at h
              cases hs : G[s]? with
              | none =>
                simp only [hs] at h
                exact Except.noConfusion h
              | some se =>
                cases hgt : G[t]? with
                | none =>
                  simp only [hs, hgt] at h
                  exact Except.noConfusion h
                | some te =>
                  simp only [hs, hgt] at h
                  have hout :
                      ∀ st0 text, writeArcs G cC depth scope complexA attrA rest
                          (markWrite st0 i text) = .ok st' → st0 = st →
                        ∃ new, st'.events = st.events ++ new ∧
                          ∀ j ∈ tagsOf new, ∃ e2, G[j]? = some e2 ∧
                            (e2.tag = Tag.arc ∨ e2.tag = Tag.pair) := by
                    intro st0 text hrec hst0
                    subst hst0
                    obtain ⟨new, he, hj⟩ := ih _ st' hrec
                    refine ⟨(some i, text) :: new, ?_, ?_⟩
                    · rw [he]
                      simp [markWrite, List.append_assoc]
                    · intro j hjn
                      rw [show tagsOf ((some i, text) :: new) = i :: tagsOf new from rfl] at hjn
                      rcases List.mem_cons.mp hjn with hjn | hjn
                      · subst hjn
                        exact ⟨e, hG, htag⟩
                      · exact hj j hjn
                  by_cases hcx : complexA.contains i = true
                  · rw [if_pos hcx] at h
                    cases hf : findIncident G i scope with
                    | error m =>
                      simp only [hf] at h
                      exact Except.noConfusion h
                    | ok o =>
                      cases o with
                      | none =>
                        simp only [hf] at h
                        exact hout st _ h rfl
                      | some a =>
                        simp only [hf] at h
                        exact hout st _ h rfl
                  · rw [if_neg hcx] at h
                    exact hout st _ h rfl
      · rw [if_neg htag] at h
        exact ih st st' h

theorem writeContoursAux_new_tags (go : List Nat → Nat → St → Except String St)
    (G : Graph) (depth : Nat)
    (hgo : ∀ sc d s s', go sc d s = .ok s' →
      ∃ new, s'.events = s.events ++ new ∧ ∀ j ∈ tagsOf new, NonBusAt G j) :
    ∀ l st st', writeContoursAux go G depth l st = .ok st' →
      ∃ new, st'.events = st.events ++ new ∧ ∀ j ∈ tagsOf new, NonBusAt G j := by
  intro l
  induction l with
  | nil =>
    intro st st' h
    simp only [writeContoursAux] at h
    injection h with h
    subst h
    exact ⟨[], by simp, by simp [tagsOf]⟩
  | cons i rest ih =>
    intro st st' h
    cases hG : G[i]? with
    | none =>
      simp only [writeContoursAux, hG] at h
      exact Except.noConfusion h
    | some e =>
      simp only [writeContoursAux, hG] at h
      by_cases htag : e.tag = Tag.contour
      · rw [if_pos htag] at h
        by_cases hw : st.written.contains i = true
        · rw [if_pos hw] at h
          exact ih st st' h
        · rw [if_neg hw] at h
          cases hch : e.children with
          | none =>
            simp only [hch] at h
            exact Except.noConfusion h
          | some ch =>
            simp only [hch] at h
            cases hrec : go ch (depth + 1)
                (markWrite st i (tabs depth ++ identOrFallback "contour_" e ++ " = [*\n")) with
            | error m =>
              rw [hrec] at h
              exact Except.noConfusion h
            | ok st2 =>
              rw [hrec] at h
              obtain ⟨n2, he2, hj2⟩ := hgo _ _ _ _ hrec
              obtain ⟨n3, he3, hj3⟩ := ih _ st' h
              refine ⟨(some i, tabs depth ++ identOrFallback "contour_" e ++ " = [*\n")
                  :: (n2 ++ ((none, tabs depth ++ "*];;\n\n") :: n3)), ?_, ?_⟩
              · rw [he3]
                simp only [emit, he2, markWrite]
                simp [List.append_assoc]
              · intro j hjn
                rw [show tagsOf ((some i, tabs depth ++ identOrFallback "contour_" e ++ " = [*\n")
                      :: (n2 ++ ((none, tabs depth ++ "*];;\n\n") :: n3)))
                    = i :: (tagsOf n2 ++ tagsOf n3) from by simp [tagsOf]] at hjn
                rcases List.mem_cons.mp hjn with hjn | hjn
                · subst hjn
                  exact ⟨e, hG, by rw [htag]; intro hx; exact Tag.noConfusion hx⟩
                · rcases List.mem_append.mp hjn with hjn2 | hjn2
                  · exact hj2 j hjn2
                  · exact hj3 j hjn2
      · rw [if_neg htag] at h
        exact ih st st' h

theorem write_new_tags (G : Graph) (cN cC : String → String) :
    ∀ fuel scope depth st st', write G cN cC fuel scope depth st = .ok st' →
      ∃ new, st'.events = st.events ++ new ∧ ∀ j ∈ tagsOf new, NonBusAt G j := by
  intro fuel
  induction fuel with
  | zero =>
    intro scope depth st st' h
    simp only [write] at h
    exact Except.noConfusion h
  | succ fuel ih =>
    intro scope depth st st' h
    simp only [write] at h
    cases h1 : collectNodes G (G.length + 1) scope ([], []) with
    | error m =>
      rw [h1] at h
      exact Except.noConfusion h
    | ok p =>
      obtain ⟨allNodes, vis⟩ := p
      simp only [h1] at h
      have hnodes := collect_spec_nodes G (G.length + 1) scope [] [] allNodes vis h1
      cases h2 : writeNodes G cN depth allNodes st with
      | error m =>
        rw [h2] at h
        exact Except.noConfusion h
      | ok st1 =>
        simp only [h2] at h
        cases h3 : classifyArcs G scope ([], []) with
        | error m =>
          rw [h3] at h
          exact Except.noConfusion h
        | ok q =>
          obtain ⟨cx, aa⟩ := q
          simp only [h3] at h
          cases h4 : writeArcs G cC depth scope cx aa scope st1 with
          | error m =>
            rw [h4] at h
            exact Except.noConfusion h
          | ok st2 =>
            simp only [h4] at h
            obtain ⟨n1, he1, hj1⟩ := writeNodes_new_tags G cN depth allNodes st st1 h2
            obtain ⟨n2, he2, hj2⟩ := writeArcs_new_tags G cC depth scope cx aa scope st1 st2 h4
            obtain ⟨n3, he3, hj3⟩ := writeContoursAux_new_tags _ G depth
              (fun sc d s s' hh => ih sc d s s' hh) scope st2 st' h
            refine ⟨n1 ++ n2 ++ n3, ?_, ?_⟩
            · rw [he3, he2, he1]
              simp [List.append_assoc]
            · intro j hjn
              rw [tagsOf_append, tagsOf_append] at hjn
              rcases List.mem_append.mp hjn with hjn | hjn3
              · rcases List.mem_append.mp hjn with hjn1 | hjn2
                · have := hj1 j hjn1
                  rcases hnodes j this with hx | ⟨e, hGe, hte⟩
                  · exact absurd hx (List.not_mem_nil j)
                  · exact ⟨e, hGe, by rw [hte]; intro hx; exact Tag.noConfusion hx⟩
                · obtain ⟨e, hGe, hte⟩ := hj2 j hjn2
                  rcases hte with hte | hte
                  · exact ⟨e, hGe, by rw [hte]; intro hx; exact Tag.noConfusion hx⟩
                  · exact ⟨e, hGe, by rw [hte]; intro hx; exact Tag.noConfusion hx⟩
              · exact hj3 j hjn3

/-! ## C8: Bus elements -/

/-- C8 counterexample: a scope holding a single Bus element, fresh state:
`Write` returns with an empty event log — no identifier line and no
type-declaration line is emitted for the Bus (the claim asserts both are). -/
theorem bus_ignored_counterexample :
    write [⟨"9", "b1", "bus_t", Tag.bus, none, none, none⟩]
        (fun _ => "") (fun _ => "") 2 [0] 0 ⟨[], []⟩
      = .ok ⟨[], []⟩ ∧
    ([⟨"9", "b1", "bus_t", Tag.bus, none, none, none⟩] : Graph)[0]?.map Elem.tag
      = some Tag.bus :=
  ⟨rfl, rfl⟩

/-- C8 (amended): `Write` ignores Bus elements entirely: no event of a call
is ever tagged with a Bus element's index, and a Bus element is never added
to the write-once set. -/
theorem write_ignores_bus (G : Graph) (cN cC : String → String) (fuel depth : Nat)
    (scope : List Nat) (st st' : St) (i : Nat) (e : Elem)
    (hGi : G[i]? = some e) (hbus : e.tag = Tag.bus)
    (h : write G cN cC fuel scope depth st = .ok st') :
    ∃ new, st'.events = st.events ++ new ∧ i ∉ tagsOf new ∧
      (i ∈ st'.written ↔ i ∈ st.written) := by
  obtain ⟨new, he, hnb⟩ := write_new_tags G cN cC fuel scope depth st st' h
  obtain ⟨new2, he2, hw2, _, _⟩ := write_spec G cN cC fuel scope depth st st' h
  have hnew : new2 = new := by
    have := he2.symm.trans he
    exact List.append_cancel_left this
  rw [hnew] at hw2
  have hni : i ∉ tagsOf new := by
    intro hmem
    obtain ⟨e2, hGe2, hne⟩ := hnb i hmem
    rw [hGi] at hGe2
    injection hGe2 with hGe2
    subst hGe2
    exact hne hbus
  refine ⟨new, he, hni, ?_⟩
  rw [hw2]
  constructor
  · intro hx
    rcases List.mem_append.mp hx with hx | hx
    · exact hx
    · exact absurd hx hni
  · intro hx
    exact List.mem_append.mpr (Or.inl hx)

/-- Witness for `write_ignores_bus`: a graph with one node and one Bus,
the Bus in scope. -/
theorem write_ignores_bus_witness :
    ∃ new, (⟨[0], [(some 0, "n1\n\t<- node_;;\n\n")]⟩ : St).events
        = (⟨[], []⟩ : St).events ++ new ∧ 1 ∉ tagsOf new ∧
      (1 ∈ (⟨[0], [(some 0, "n1\n\t<- node_;;\n\n")]⟩ : St).written ↔
        1 ∈ (⟨[], []⟩ : St).written) :=
  write_ignores_bus
    [⟨"1", "n1", "nt", Tag.node, none, none, none⟩,
     ⟨"9", "b1", "bus_t", Tag.bus, none, none, none⟩]
    (fun _ => "") (fun _ => "") 2 0 [0, 1] ⟨[], []⟩ _ 1 _ rfl rfl rfl

/-! ## Edge-classifier characterization -/

theorem classify_mono (G : Graph) :
    ∀ l cx aa cx2 aa2, classifyArcs G l (cx, aa) = .ok (cx2, aa2) →
      (∀ j ∈ cx, j ∈ cx2) ∧ (∀ j ∈ aa, j ∈ aa2) := by
  intro l
  induction l with
  | nil =>
    intro cx aa cx2 aa2 h
    simp only [classifyArcs] at h
    injection h with h
    injection h with h1 h2
    subst h1
    subst h2
    exact ⟨fun j hj => hj, fun j hj => hj⟩
  | cons i rest ih =>
    intro cx aa cx2 aa2 h
    cases hG : G[i]? with
    | none =>
      simp only [classifyArcs, hG] at h
      exact Except.noConfusion h
    | some e =>
      simp only [classifyArcs, hG] at h
      by_cases ht : e.tag = Tag.arc ∨ e.tag = Tag.pair
      · rw [if_pos ht] at h
        cases hc : e.conn with
        | none =>
          simp only [hc] at h
          exact Except.noConfusion h
        | some p =>
          obtain ⟨s, t⟩ := p
          simp only [hc] at h
          cases hgt : G[t]? with
          | none =>
            simp only [hgt] at h
            exact Except.noConfusion h
          | some te =>
            simp only [hgt] at h
            by_cases htt : te.tag = Tag.arc ∨ te.tag = Tag.pair
            · rw [if_pos htt] at h
              have := ih _ _ _ _ h
              constructor
              · intro j hj
                apply this.1
                by_cases hcx : cx.contains t = true
                · rw [if_pos hcx]
                  exact hj
                · rw [if_neg hcx]
                  exact List.mem_append.mpr (Or.inl hj)
              · intro j hj
                apply this.2
                by_cases haa : aa.contains i = true
                · rw [if_pos haa]
                  exact hj
                · rw [if_neg haa]
                  exact List.mem_append.mpr (Or.inl hj)
            · rw [if_neg htt] at h
              exact ih _ _ _ _ h
      · rw [if_neg ht] at h
        exact ih _ _ _ _ h

theorem classify_attr_mem (G : Graph) :
    ∀ l cx aa cx2 aa2, classifyArcs G l (cx, aa) = .ok (cx2, aa2) →
      ∀ i ∈ aa2, i ∈ aa ∨
        ∃ e s t te, G[i]? = some e ∧ (e.tag = Tag.arc ∨ e.tag = Tag.pair) ∧
          e.conn = some (s, t) ∧ G[t]? = some te ∧
          (te.tag = Tag.arc ∨ te.tag = Tag.pair) := by
  intro l
  induction l with
  | nil =>
    intro cx aa cx2 aa2 h
    simp only [classifyArcs] at h
    injection h with h
    injection h with h1 h2
    subst h1
    subst h2
    exact fun i hi => Or.inl hi
  | cons i rest ih =>
    intro cx aa cx2 aa2 h
    cases hG : G[i]? with
    | none =>
      simp only [classifyArcs, hG] at h
      exact Except.noConfusion h
    | some e =>
      simp only [classifyArcs, hG] at h
      by_cases ht : e.tag = Tag.arc ∨ e.tag = Tag.pair
      · rw [if_pos ht] at h
        cases hc : e.conn with
        | none =>
          simp only [hc] at h
          exact Except.noConfusion h
        | some p =>
          obtain ⟨s, t⟩ := p
          simp only [hc] at h
          cases hgt : G[t]? with
          | none =>
            simp only [hgt] at h
            exact Except.noConfusion h
          | some te =>
            simp only [hgt] at h
            by_cases htt : te.tag = Tag.arc ∨ te.tag = Tag.pair
            · rw [if_pos htt] at h
              intro k hk
              rcases ih _ _ _ _ h k hk with hk2 | hk2
              · by_cases haa : aa.contains i = true
                · rw [if_pos haa] at hk2
                  exact Or.inl hk2
                · rw [if_neg haa] at hk2
                  rcases List.mem_append.mp hk2 with hk3 | hk3
                  · exact Or.inl hk3
                  · have hk4 : k = i := by simpa using hk3
                    subst hk4
                    exact Or.inr ⟨e, s, t, te, hG, ht, hc, hgt, htt⟩
              · exact Or.inr hk2
            · rw [if_neg htt] at h
              exact ih _ _ _ _ h
      · rw [if_neg ht] at h
        exact ih _ _ _ _ h

theorem classify_complete (G : Graph) (A tA sA : Nat) (eA eT : Elem)
    (hA : G[A]? = some eA) (htagA : eA.tag = Tag.arc ∨ eA.tag = Tag.pair)
    (hconnA : eA.conn = some (sA, tA)) (hT : G[tA]? = some eT)
    (hTtag : eT.tag = Tag.arc ∨ eT.tag = Tag.pair) :
    ∀ l cx aa cx2 aa2, classifyArcs G l (cx, aa) = .ok (cx2, aa2) → A ∈ l →
      A ∈ aa2 ∧ tA ∈ cx2 := by
  intro l
  induction l with
  | nil =>
    intro cx aa cx2 aa2 _ hmem
    exact absurd hmem (List.not_mem_nil A)
  | cons i rest ih =>
    intro cx aa cx2 aa2 h hmem
    by_cases hiA : i = A
    · subst hiA
      simp only [classifyArcs, hA] at h
      rw [if_pos htagA] at h
      simp only [hconnA, hT] at h
      rw [if_pos hTtag] at h
      have hmono := classify_mono G rest _ _ _ _ h
      constructor
      · apply hmono.2
        by_cases haa : aa.contains i = true
        · rw [if_pos haa]
          simpa using haa
        · rw [if_neg haa]
          exact List.mem_append.mpr (Or.inr (List.mem_singleton.mpr rfl))
      · apply hmono.1
        by_cases hcx : cx.contains tA = true
        · rw [if_pos hcx]
          simpa using hcx
        · rw [if_neg hcx]
          exact List.mem_append.mpr (Or.inr (List.mem_singleton.mpr rfl))
    · have hrest : A ∈ rest := by
        rcases List.mem_cons.mp hmem with h1 | h1
        · exact absurd h1.symm hiA
        · exact h1
      cases hG : G[i]? with
      | none =>
        simp only [classifyArcs, hG] at h
        exact Except.noConfusion h
      | some e =>
        simp only [classifyArcs, hG] at h
        by_cases ht : e.tag = Tag.arc ∨ e.tag = Tag.pair
        · rw [if_pos ht] at h
          cases hc : e.conn with
          | none =>
            simp only [hc] at h
            exact Except.noConfusion h
          | some p =>
            obtain ⟨s, t⟩ := p
            simp only [hc] at h
            cases hgt : G[t]? with
            | none =>
              simp only [hgt] at h
              exact Except.noConfusion h
            | some te =>
              simp only [hgt] at h
              by_cases htt : te.tag = Tag.arc ∨ te.tag = Tag.pair
              · rw [if_pos htt] at h
                exact ih _ _ _ _ h hrest
              · rw [if_neg htt] at h
                exact ih _ _ _ _ h hrest
        · rw [if_neg ht] at h
          exact ih _ _ _ _ h hrest

/-! ## Incident-source search characterization -/

theorem findIncident_some_spec (G : Graph) (selfIdx : Nat) :
    ∀ l a, findIncident G selfIdx l = .ok (some a) →
      ∃ j e s se, j ∈ l ∧ G[j]? = some e ∧ (e.tag = Tag.arc ∨ e.tag = Tag.pair) ∧
        e.conn = some (s, selfIdx) ∧ G[s]? = some se ∧
        a = identOrFallback "node_" se := by
  intro l
  induction l with
  | nil =>
    intro a h
    simp only [findIncident] at h
    injection h with h
    exact Option.noConfusion h
  | cons i rest ih =>
    intro a h
    cases hG : G[i]? with
    | none =>
      simp only [findIncident, hG] at h
      exact Except.noConfusion h
    | some e =>
      simp only [findIncident, hG] at h
      by_cases ht : e.tag = Tag.arc ∨ e.tag = Tag.pair
      · rw [if_pos ht] at h
        cases hc : e.conn with
        | none =>
          simp only [hc] at h
          exact Except.noConfusion h
        | some p =>
          obtain ⟨s, t⟩ := p
          simp only [hc] at h
          by_cases hts : t = selfIdx
          · rw [if_pos hts] at h
            cases hs : G[s]? with
            | none =>
              simp only [hs] at h
              exact Except.noConfusion h
            | some se =>
              simp only [hs] at h
              injection h with h
              injection h with h
              refine ⟨i, e, s, se, List.mem_cons_self i rest, hG, ht, ?_, hs, h.symm⟩
              rw [← hts]
              exact hc
          · rw [if_neg hts] at h
            obtain ⟨j, e2, s2, se2, hj, hGe, htag2, hconn2, hGs2, ha⟩ := ih a h
            exact ⟨j, e2, s2, se2, List.mem_cons_of_mem _ hj, hGe, htag2, hconn2, hGs2, ha⟩
      · rw [if_neg ht] at h
        obtain ⟨j, e2, s2, se2, hj, hGe, htag2, hconn2, hGs2, ha⟩ := ih a h
        exact ⟨j, e2, s2, se2, List.mem_cons_of_mem _ hj, hGe, htag2, hconn2, hGs2, ha⟩

theorem findIncident_finds (G : Graph) (hG : ShapeOk G) (selfIdx : Nat) :
    ∀ l, ScopeOk G l →
      (∃ j, j ∈ l ∧ ∃ e s, G[j]? = some e ∧ (e.tag = Tag.arc ∨ e.tag = Tag.pair) ∧
        e.conn = some (s, selfIdx)) →
      ∃ a, findIncident G selfIdx l = .ok (some a) := by
  intro l
  induction l with
  | nil =>
    intro _ hx
    obtain ⟨j, hj, _⟩ := hx
    exact absurd hj (List.not_mem_nil j)
  | cons i rest ih =>
    intro hsc hx
    obtain ⟨j, hjmem, e1, s1, hj, hjtag, hjconn⟩ := hx
    have htl : ScopeOk G rest := fun k hk => hsc k (List.mem_cons_of_mem _ hk)
    have hi : i < G.length := hsc i (List.mem_cons_self i rest)
    obtain ⟨ei, hGi, hmem⟩ := get?_of_lt hi
    simp only [findIncident, hGi]
    by_cases ht : ei.tag = Tag.arc ∨ ei.tag = Tag.pair
    · rw [if_pos ht]
      obtain ⟨s, t, hc, hslt, _⟩ := elemOk_conn (hG ei hmem) ht
      simp only [hc]
      by_cases hts : t = selfIdx
      · rw [if_pos hts]
        obtain ⟨se, hGs, _⟩ := get?_of_lt hslt
        simp only [hGs]
        exact ⟨identOrFallback "node_" se, rfl⟩
      · rw [if_neg hts]
        apply ih htl
        rcases List.mem_cons.mp hjmem with hji | hjr
        · exfalso
          rw [hji, hGi] at hj
          injection hj with hj
          subst hj
          rw [hc] at hjconn
          injection hjconn with hjconn
          injection hjconn with _ h2
          exact hts h2
        · exact ⟨j, hjr, e1, s1, hj, hjtag, hjconn⟩
    · rw [if_neg ht]
      apply ih htl
      rcases List.mem_cons.mp hjmem with hji | hjr
      · exfalso
        rw [hji, hGi] at hj
        injection hj with hj
        subst hj
        exact ht hjtag
      · exact ⟨j, hjr, e1, s1, hj, hjtag, hjconn⟩

/-! ## Emission of a complex arc -/

theorem writeArcs_emits (G : Graph) (cC : String → String) (depth : Nat)
    (scope complexA attrA : List Nat) (B sB tB : Nat) (eB seB teB : Elem)
    (hB : G[B]? = some eB) (hBtag : eB.tag = Tag.arc ∨ eB.tag = Tag.pair)
    (hBconn : eB.conn = some (sB, tB))
    (hBs : G[sB]? = some seB) (hBt : G[tB]? = some teB)
    (hBcx : complexA.contains B = true) (hBattr : attrA.contains B = false)
    (a : String) (hfind : findIncident G B scope = .ok (some a)) :
    ∀ l st st', B ∈ l → writeArcs G cC depth scope complexA attrA l st = .ok st' →
      B ∈ st.written ∨
        (some B, tabs depth ++ identOrFallback "node_" seB ++ " " ++ symbolOf cC eB ++
          " " ++ a ++ ": " ++ identOrFallback "node_" teB ++ ";;\n\n") ∈ st'.events := by
  intro l
  induction l with
  | nil =>
    intro st st' hmem _
    exact absurd hmem (List.not_mem_nil B)
  | cons i rest ih =>
    intro st st' hmem h
    by_cases hiB : i = B
    · subst hiB
      simp only [writeArcs, hB] at h
      rw [if_pos hBtag] at h
      by_cases hw : st.written.contains i = true
      · left
        simpa using hw
      · rw [if_neg hw] at h
        rw [if_neg (by rw [hBattr]; exact Bool.false_ne_true)] at h
        simp only [hBconn, hBs, hBt] at h
        rw [if_pos hBcx] at h
        simp only [hfind] at h
        right
        obtain ⟨new, he, _, _, _⟩ :=
          writeArcs_spec G cC depth scope complexA attrA rest _ st' h
        rw [he]
        apply List.mem_append.mpr
        left
        exact List.mem_append.mpr (Or.inr (List.mem_singleton.mpr rfl))
    · have hrest : B ∈ rest := by
        rcases List.mem_cons.mp hmem with h1 | h1
        · exact absurd h1.symm hiB
        · exact h1
      cases hG : G[i]? with
      | none =>
        simp only [writeArcs, hG] at h
        exact Except.noConfusion h
      | some e =>
        simp only [writeArcs, hG] at h
        have hout : ∀ text,
            writeArcs G cC depth scope complexA attrA rest (markWrite st i text) = .ok st' →
            B ∈ st.written ∨
              (some B, tabs depth ++ identOrFallback "node_" seB ++ " " ++ symbolOf cC eB ++
                " " ++ a ++ ": " ++ identOrFallback "node_" teB ++ ";;\n\n") ∈ st'.events := by
          intro text hrec
          rcases ih _ st' hrest hrec with hin | hev
          · rcases List.mem_append.mp hin with h1 | h1
            · exact Or.inl h1
            · exact absurd ((by simpa using h1 : B = i)) (fun hh => hiB hh.symm)
          · exact Or.inr hev
        by_cases htag : e.tag = Tag.arc ∨ e.tag = Tag.pair
        · rw [if_pos htag] at h
          by_cases hw : st.written.contains i = true
          · rw [if_pos hw] at h
            exact ih st st' hrest h
          · rw [if_neg hw] at h
            by_cases ha : attrA.contains i = true
            · rw [if_pos ha] at h
              exact ih st st' hrest h
            · rw [if_neg ha] at h
              cases hc : e.conn with
              | none =>
                simp only [hc] at h
                exact Except.noConfusion h
              | some p =>
                obtain ⟨s, t⟩ := p
                simp only [hc] at h
                cases hgs : G[s]? with
                | none =>
                  simp only [hgs] at h
                  exact Except.noConfusion h
                | some se =>
                  cases hgt : G[t]? with
                  | none =>
                    simp only [hgs, hgt] at h
                    exact Except.noConfusion h
                  | some te =>
                    simp only [hgs, hgt] at h
                    by_cases hcx : complexA.contains i = true
                    · rw [if_pos hcx] at h
                      cases hf : findIncident G i scope with
                      | error m =>
                        simp only [hf] at h
                        exact Except.noConfusion h
                      | ok o =>
                        cases o with
                        | none =>
                          simp only [hf] at h
                          exact hout _ h
                        | some a2 =>
                          simp only [hf] at h
                          exact hout _ h
                    · rw [if_neg hcx] at h
                      exact hout _ h
        · rw [if_neg htag] at h
          exact ih st st' hrest h

/-! ## An attribute arc is never emitted -/

theorem writeArcs_no_attr (G : Graph) (cC : String → String) (depth : Nat)
    (scope complexA attrA : List Nat) (A : Nat) :
    ∀ l st st', (A ∈ l → attrA.contains A = true) →
      writeArcs G cC depth scope complexA attrA l st = .ok st' →
      ∃ new, st'.events = st.events ++ new ∧ A ∉ tagsOf new := by
  intro l
  induction l with
  | nil =>
    intro st st' _ h
    simp only [writeArcs] at h
    injection h with h
    subst h
    exact ⟨[], by simp, by simp [tagsOf]⟩
  | cons i rest ih =>
    intro st st' hattr h
    have hattr2 : A ∈ rest → attrA.contains A = true :=
      fun hr => hattr (List.mem_cons_of_mem _ hr)
    cases hG : G[i]? with
    | none =>
      simp only [writeArcs, hG] at h
      exact Except.noConfusion h
    | some e =>
      simp only [writeArcs, hG] at h
      have hout : ∀ text, i ≠ A →
          writeArcs G cC depth scope complexA attrA rest (markWrite st i text) = .ok st' →
          ∃ new, st'.events = st.events ++ new ∧ A ∉ tagsOf new := by
        intro text hne hrec
        obtain ⟨new, he, hni⟩ := ih _ st' hattr2 hrec
        refine ⟨(some i, text) :: new, ?_, ?_⟩
        · rw [he]
          simp [markWrite, List.append_assoc]
        · intro hmem
          rw [show tagsOf ((some i, text) :: new) = i :: tagsOf new from rfl] at hmem
          rcases List.mem_cons.mp hmem with h1 | h1
          · exact hne h1.symm
          · exact hni h1
      by_cases htag : e.tag = Tag.arc ∨ e.tag = Tag.pair
      · rw [if_pos htag] at h
        by_cases hw : st.written.contains i = true
        · rw [if_pos hw] at h
          exact ih st st' hattr2 h
        · rw [if_neg hw] at h
          by_cases ha : attrA.contains i = true
          · rw [if_pos ha] at h
            exact ih st st' hattr2 h
          · rw [if_neg ha] at h
            have hiA : i ≠ A := by
              intro he2
              subst he2
              exact ha (hattr (List.mem_cons_self i rest))
            cases hc : e.conn with
            | none =>
              simp only [hc] at h
              exact Except.noConfusion h
            | some p =>
              obtain ⟨s, t⟩ := p
              simp only [hc] at h
              cases hgs : G[s]? with
              | none =>
                simp only [hgs] at h
                exact Except.noConfusion h
              | some se =>
                cases hgt : G[t]? with
                | none =>
                  simp only [hgs, hgt] at h
                  exact Except.noConfusion h
                | some te =>
                  simp only [hgs, hgt] at h
                  by_cases hcx : complexA.contains i = true
                  · rw [if_pos hcx] at h
                    cases hf : findIncident G i scope with
                    | error m =>
                      simp only [hf] at h
                      exact Except.noConfusion h
                    | ok o =>
                      cases o with
                      | none =>
                        simp only [hf] at h
                        exact hout _ hiA h
                      | some a2 =>
                        simp only [hf] at h
                        exact hout _ hiA h
                  · rw [if_neg hcx] at h
                    exact hout _ hiA h
      · rw [if_neg htag] at h
        exact ih st st' hattr2 h

theorem writeContoursAux_no_tag (go : List Nat → Nat → St → Except String St)
    (G : Graph) (depth : Nat) (A : Nat)
    (hgo : ∀ sc d s s', go sc d s = .ok s' →
      ∃ new, s'.events = s.events ++ new ∧ A ∉ tagsOf new)
    (hAnc : ∀ e, G[A]? = some e → e.tag ≠ Tag.contour) :
    ∀ l st st', writeContoursAux go G depth l st = .ok st' →
      ∃ new, st'.events = st.events ++ new ∧ A ∉ tagsOf new := by
  intro l
  induction l with
  | nil =>
    intro st st' h
    simp only [writeContoursAux] at h
    injection h with h
    subst h
    exact ⟨[], by simp, by simp [tagsOf]⟩
  | cons i rest ih =>
    intro st st' h
    cases hG : G[i]? with
    | none =>
      simp only [writeContoursAux, hG] at h
      exact Except.noConfusion h
    | some e =>
      simp only [writeContoursAux, hG] at h
      by_cases htag : e.tag = Tag.contour
      · rw [if_pos htag] at h
        by_cases hw : st.written.contains i = true
        · rw [if_pos hw] at h
          exact ih st st' h
        · rw [if_neg hw] at h
          cases hch : e.children with
          | none =>
            simp only [hch] at h
            exact Except.noConfusion h
          | some ch =>
            simp only [hch] at h
            cases hrec : go ch (depth + 1)
                (markWrite st i (tabs depth ++ identOrFallback "contour_" e ++ " = [*\n")) with
            | error m =>
              rw [hrec] at h
              exact Except.noConfusion h
            | ok st2 =>
              rw [hrec] at h
              have hiA : i ≠ A := by
                intro he2
                rw [he2] at hG
                exact hAnc e hG htag
              obtain ⟨n2, he2, hn2⟩ := hgo _ _ _ _ hrec
              obtain ⟨n3, he3, hn3⟩ := ih _ st' h
              refine ⟨(some i, tabs depth ++ identOrFallback "contour_" e ++ " = [*\n")
                  :: (n2 ++ ((none, tabs depth ++ "*];;\n\n") :: n3)), ?_, ?_⟩
              · rw [he3]
                simp only [emit, he2, markWrite]
                simp [List.append_assoc]
              · intro hmem
                rw [show tagsOf ((some i, tabs depth ++ identOrFallback "contour_" e ++ " = [*\n")
                      :: (n2 ++ ((none, tabs depth ++ "*];;\n\n") :: n3)))
                    = i :: (tagsOf n2 ++ tagsOf n3) from by simp [tagsOf]] at hmem
                rcases List.mem_cons.mp hmem with h1 | h1
                · exact hiA h1.symm
                · rcases List.mem_append.mp h1 with h2 | h2
                  · exact hn2 h2
                  · exact hn3 h2
      · rw [if_neg htag] at h
        exact ih st st' h

theorem write_no_attr_emit (G : Graph) (cN cC : String → String)
    (A sA tA : Nat) (eA eT : Elem)
    (hA : G[A]? = some eA) (hAtag : eA.tag = Tag.arc ∨ eA.tag = Tag.pair)
    (hAconn : eA.conn = some (sA, tA)) (hT : G[tA]? = some eT)
    (hTtag : eT.tag = Tag.arc ∨ eT.tag = Tag.pair) :
    ∀ fuel scope depth st st', write G cN cC fuel scope depth st = .ok st' →
      ∃ new, st'.events = st.events ++ new ∧ A ∉ tagsOf new := by
  intro fuel
  induction fuel with
  | zero =>
    intro scope depth st st' h
    simp only [write] at h
    exact Except.noConfusion h
  | succ fuel ih =>
    intro scope depth st st' h
    simp only [write] at h
    cases h1 : collectNodes G (G.length + 1) scope ([], []) with
    | error m =>
      rw [h1] at h
      exact Except.noConfusion h
    | ok p =>
      obtain ⟨allNodes, vis⟩ := p
      simp only [h1] at h
      cases h2 : writeNodes G cN depth allNodes st with
      | error m =>
        rw [h2] at h
        exact Except.noConfusion h
      | ok st1 =>
        simp only [h2] at h
        cases h3 : classifyArcs G scope ([], []) with
        | error m =>
          rw [h3] at h
          exact Except.noConfusion h
        | ok q =>
          obtain ⟨cx, aa⟩ := q
          simp only [h3] at h
          cases h4 : writeArcs G cC depth scope cx aa scope st1 with
          | error m =>
            rw [h4] at h
            exact Except.noConfusion h
          | ok st2 =>
            simp only [h4] at h
            obtain ⟨n1, he1, hj1⟩ := writeNodes_new_tags G cN depth allNodes st st1 h2
            have hn1 : A ∉ tagsOf n1 := by
              intro hmem
              have hin := hj1 A hmem
              rcases collect_spec_nodes G (G.length + 1) scope [] [] allNodes vis h1 A hin with
                h0 | ⟨e2, hGe2, hte2⟩
              · exact absurd h0 (List.not_mem_nil A)
              · rw [hA] at hGe2
                injection hGe2 with hGe2
                subst hGe2
                rw [hte2] at hAtag
                rcases hAtag with hb | hb
                · exact Tag.noConfusion hb
                · exact Tag.noConfusion hb
            have hattr : A ∈ scope → aa.contains A = true := by
              intro hin
              have := classify_complete G A tA sA eA eT hA hAtag hAconn hT hTtag
                scope [] [] cx aa h3 hin
              simpa using this.1
            obtain ⟨n2, he2, hn2⟩ :=
              writeArcs_no_attr G cC depth scope cx aa A scope st1 st2 hattr h4
            obtain ⟨n3, he3, hn3⟩ := writeContoursAux_no_tag _ G depth A
              (fun sc d s s' hh => ih sc d s s' hh)
              (fun e2 hGe2 => by
                rw [hA] at hGe2
                injection hGe2 with hGe2
                subst hGe2
                rcases hAtag with hb | hb
                · rw [hb]
                  intro hx
                  exact Tag.noConfusion hx
                · rw [hb]
                  intro hx
                  exact Tag.noConfusion hx)
              scope st2 st' h
            refine ⟨n1 ++ n2 ++ n3, ?_, ?_⟩
            · rw [he3, he2, he1]
              simp [List.append_assoc]
            · intro hmem
              rw [tagsOf_append, tagsOf_append] at hmem
              rcases List.mem_append.mp hmem with hmem | h3m
              · rcases List.mem_append.mp hmem with h1m | h2m
                · exact hn1 h1m
                · exact hn2 h2m
              · exact hn3 h3m

/-! ## Counting events by tag -/

theorem countP_tag_eq_count (B : Nat) :
    ∀ evs : List (Option Nat × String),
      evs.countP (fun ev => decide (ev.1 = some B)) = (tagsOf evs).count B := by
  intro evs
  induction evs with
  | nil => rfl
  | cons ev tl ih =>
    obtain ⟨o, s⟩ := ev
    cases o with
    | none =>
      have h1 : tagsOf ((none, s) :: tl) = tagsOf tl := rfl
      rw [List.countP_cons, h1, ih]
      simp
    | some j =>
      have h1 : tagsOf ((some j, s) :: tl) = j :: tagsOf tl := rfl
      rw [List.countP_cons, h1, List.count_cons, ih]
      by_cases hj : j = B
      · simp [hj]
      · simp [hj]

/-! ## C2: ternary consumption -/

/-- C2 counterexample: the claim as stated fails when B is itself an
attribute arc.  Chain (indices): nodes 0–3; connector 4 from 0 to 1;
connector 5 ("B") from 2 to 4; connector 6 ("A") from 3 to 5.  A targets B,
both connectors of the scope, yet B is emitted zero times (not "exactly
once"): B's own target is a connector, so B is consumed as an attribute
arc. -/
theorem ternary_chain_counterexample :
    ∃ st', write [⟨"1", "n1", "nt", Tag.node, none, none, none⟩,
        ⟨"2", "n2", "nt", Tag.node, none, none, none⟩,
        ⟨"3", "n3", "nt", Tag.node, none, none, none⟩,
        ⟨"4", "n4", "nt", Tag.node, none, none, none⟩,
        ⟨"5", "c", "at", Tag.arc, some (0, 1), none, none⟩,
        ⟨"6", "b", "at", Tag.arc, some (2, 4), none, none⟩,
        ⟨"7", "a", "at", Tag.arc, some (3, 5), none, none⟩]
      (fun _ => "") (fun _ => "") 2 [0, 1, 2, 3, 4, 5, 6] 0 ⟨[], []⟩ = .ok st' ∧
      st'.events.countP (fun ev => decide (ev.1 = some 5)) = 0 ∧
      ([⟨"1", "n1", "nt", Tag.node, none, none, none⟩,
        ⟨"2", "n2", "nt", Tag.node, none, none, none⟩,
        ⟨"3", "n3", "nt", Tag.node, none, none, none⟩,
        ⟨"4", "n4", "nt", Tag.node, none, none, none⟩,
        ⟨"5", "c", "at", Tag.arc, some (0, 1), none, none⟩,
        ⟨"6", "b", "at", Tag.arc, some (2, 4), none, none⟩,
        ⟨"7", "a", "at", Tag.arc, some (3, 5), none, none⟩] : Graph)[6]?.map Elem.conn
        = some (some (3, 5)) :=
  ⟨⟨[0, 1, 2, 3, 4],
    [(some 0, "n1\n\t<- node_;;\n\n"), (some 1, "n2\n\t<- node_;;\n\n"),
     (some 2, "n3\n\t<- node_;;\n\n"), (some 3, "n4\n\t<- node_;;\n\n"),
     (some 4, "n1 -> n3: n2;;\n\n")]⟩, rfl, by decide, rfl⟩

/-- C2 (amended): for every scope and connectors A, B of the scope with A
targeting B, PROVIDED B's own target is not itself a connector: starting
from a fresh write-once set, A is never emitted as an independent edge
statement, and B is emitted exactly once, in ternary form
`source SYMBOL incidentSource: target`, the incident source being the
source identifier of some connector of the scope targeting B. -/
theorem write_ternary_consumption (G : Graph) (cN cC : String → String)
    (fuel depth : Nat) (scope : List Nat) (st' : St)
    (A B sA sB tB : Nat) (eA eB seB teB : Elem)
    (hG : ShapeOk G) (hsc : ScopeOk G scope)
    (hA : G[A]? = some eA) (hAtag : eA.tag = Tag.arc ∨ eA.tag = Tag.pair)
    (hAconn : eA.conn = some (sA, B))
    (hB : G[B]? = some eB) (hBtag : eB.tag = Tag.arc ∨ eB.tag = Tag.pair)
    (hBconn : eB.conn = some (sB, tB))
    (hBs : G[sB]? = some seB) (hBt : G[tB]? = some teB)
    (hTB : ¬(teB.tag = Tag.arc ∨ teB.tag = Tag.pair))
    (hAin : A ∈ scope) (hBin : B ∈ scope)
    (h : write G cN cC fuel scope depth ⟨[], []⟩ = .ok st') :
    st'.events.countP (fun ev => decide (ev.1 = some A)) = 0 ∧
    ∃ a, findIncident G B scope = .ok (some a) ∧
      st'.events.countP (fun ev => decide (ev.1 = some B)) = 1 ∧
      (some B, tabs depth ++ identOrFallback "node_" seB ++ " " ++ symbolOf cC eB ++
        " " ++ a ++ ": " ++ identOrFallback "node_" teB ++ ";;\n\n") ∈ st'.events ∧
      ∃ j e s se, j ∈ scope ∧ G[j]? = some e ∧ (e.tag = Tag.arc ∨ e.tag = Tag.pair) ∧
        e.conn = some (s, B) ∧ G[s]? = some se ∧ a = identOrFallback "node_" se := by
  have horig := h
  constructor
  · obtain ⟨newA, heA, hniA⟩ := write_no_attr_emit G cN cC A sA B eA eB
      hA hAtag hAconn hB hBtag fuel scope depth ⟨[], []⟩ st' h
    have heA2 : st'.events = newA := by simpa using heA
    rw [countP_tag_eq_count, heA2]
    exact List.count_eq_zero.mpr hniA
  · cases fuel with
    | zero =>
      simp only [write] at h
      exact Except.noConfusion h
    | succ fuel =>
      simp only [write] at h
      cases h1 : collectNodes G (G.length + 1) scope ([], []) with
      | error m =>
        rw [h1] at h
        exact Except.noConfusion h
      | ok p =>
        obtain ⟨allNodes, vis⟩ := p
        simp only [h1] at h
        cases h2 : writeNodes G cN depth allNodes ⟨[], []⟩ with
        | error m =>
          rw [h2] at h
          exact Except.noConfusion h
        | ok st1 =>
          simp only [h2] at h
          cases h3 : classifyArcs G scope ([], []) with
          | error m =>
            rw [h3] at h
            exact Except.noConfusion h
          | ok q =>
            obtain ⟨cx, aa⟩ := q
            simp only [h3] at h
            cases h4 : writeArcs G cC depth scope cx aa scope st1 with
            | error m =>
              rw [h4] at h
              exact Except.noConfusion h
            | ok st2 =>
              simp only [h4] at h
              have hBaa : aa.contains B = false := by
                cases hcb : aa.contains B with
                | false => rfl
                | true =>
                  exfalso
                  have hBaa2 : B ∈ aa := by simpa using hcb
                  rcases classify_attr_mem G scope [] [] cx aa h3 B hBaa2 with
                    h0 | ⟨e2, s2, t2, te2, hGe2, _, hconn2, hGt2, htt2⟩
                  · exact absurd h0 (List.not_mem_nil B)
                  · rw [hB] at hGe2
                    injection hGe2 with hGe2
                    subst hGe2
                    rw [hBconn] at hconn2
                    injection hconn2 with hconn2
                    injection hconn2 with hs2 ht2
                    subst ht2
                    rw [hBt] at hGt2
                    injection hGt2 with hGt2
                    subst hGt2
                    exact hTB htt2
              have hBcx : cx.contains B = true := by
                have := classify_complete G A B sA eA eB hA hAtag hAconn hB hBtag
                  scope [] [] cx aa h3 hAin
                simpa using this.2
              have hB1 : B ∉ st1.written := by
                obtain ⟨n1s, he1s, hw1s, _, _⟩ :=
                  writeNodes_spec G cN depth allNodes ⟨[], []⟩ st1 h2
                obtain ⟨n1t, he1t, hjt⟩ :=
                  writeNodes_new_tags G cN depth allNodes ⟨[], []⟩ st1 h2
                have hsame : n1s = n1t := List.append_cancel_left (he1s.symm.trans he1t)
                intro hmem
                rw [hw1s] at hmem
                have hmem2 : B ∈ tagsOf n1t := by
                  rw [← hsame]
                  simpa using hmem
                have hin := hjt B hmem2
                rcases collect_spec_nodes G (G.length + 1) scope [] [] allNodes vis h1 B hin with
                  h0 | ⟨e2, hGe2, hte2⟩
                · exact absurd h0 (List.not_mem_nil B)
                · rw [hB] at hGe2
                  injection hGe2 with hGe2
                  subst hGe2
                  rw [hte2] at hBtag
                  rcases hBtag with hb | hb
                  · exact Tag.noConfusion hb
                  · exact Tag.noConfusion hb
              obtain ⟨a, ha⟩ := findIncident_finds G hG B scope hsc
                ⟨A, hAin, eA, sA, hA, hAtag, hAconn⟩
              have hemit := writeArcs_emits G cC depth scope cx aa B sB tB eB seB teB
                hB hBtag hBconn hBs hBt hBcx hBaa a ha scope st1 st2 hBin h4
              rcases hemit with hin | hev
              · exact absurd hin hB1
              · have hev2 : (some B, tabs depth ++ identOrFallback "node_" seB ++ " " ++
                    symbolOf cC eB ++ " " ++ a ++ ": " ++ identOrFallback "node_" teB ++
                    ";;\n\n") ∈ st'.events := by
                  obtain ⟨n3, he3, _, _, _⟩ := writeContoursAux_spec _ G depth
                    (fun sc d s s' hh => write_spec G cN cC fuel sc d s s' hh)
                    scope st2 st' h
                  rw [he3]
                  exact List.mem_append.mpr (Or.inl hev)
                refine ⟨a, ha, ?_, hev2, ?_⟩
                · obtain ⟨newAll, heAll, _, hnAll, _⟩ :=
                    write_spec G cN cC (fuel + 1) scope depth ⟨[], []⟩ st' horig
                  have heAll2 : st'.events = newAll := by simpa using heAll
                  have hBtags : B ∈ tagsOf st'.events :=
                    List.mem_filterMap.mpr ⟨_, hev2, rfl⟩
                  rw [countP_tag_eq_count, heAll2]
                  rw [heAll2] at hBtags
                  exact List.count_eq_one_of_mem hnAll hBtags
                · obtain ⟨j, e2, s2, se2, hj, hGe2, htag2, hconn2, hGs2, ha2⟩ :=
                    findIncident_some_spec G B scope a ha
                  exact ⟨j, e2, s2, se2, hj, hGe2, htag2, hconn2, hGs2, ha2⟩

/-- Witness for `write_ternary_consumption`: the spec's scenario 3 (nodes
n1, n2, n3; arc a1 from n1 to n2; arc a2 from n3 to a1). -/
theorem write_ternary_consumption_witness :
    (⟨[0, 1, 2, 3],
      [(some 0, "n1\n\t<- node_;;\n\n"), (some 1, "n2\n\t<- node_;;\n\n"),
       (some 2, "n3\n\t<- node_;;\n\n"),
       (some 3, "n1 -> n3: n2;;\n\n")]⟩ : St).events.countP
        (fun ev => decide (ev.1 = some 4)) = 0 ∧
    ∃ a, findIncident [⟨"1", "n1", "nt", Tag.node, none, none, none⟩,
        ⟨"2", "n2", "nt", Tag.node, none, none, none⟩,
        ⟨"3", "n3", "nt", Tag.node, none, none, none⟩,
        ⟨"4", "a1", "at", Tag.arc, some (0, 1), none, none⟩,
        ⟨"5", "a2", "at", Tag.arc, some (2, 3), none, none⟩] 3 [0, 1, 2, 3, 4]
        = .ok (some a) ∧
      (⟨[0, 1, 2, 3],
        [(some 0, "n1\n\t<- node_;;\n\n"), (some 1, "n2\n\t<- node_;;\n\n"),
         (some 2, "n3\n\t<- node_;;\n\n"),
         (some 3, "n1 -> n3: n2;;\n\n")]⟩ : St).events.countP
          (fun ev => decide (ev.1 = some 3)) = 1 ∧
      (some 3, tabs 0 ++ identOrFallback "node_" ⟨"1", "n1", "nt", Tag.node, none, none, none⟩
        ++ " " ++ symbolOf (fun _ => "") ⟨"4", "a1", "at", Tag.arc, some (0, 1), none, none⟩
        ++ " " ++ a ++ ": "
        ++ identOrFallback "node_" ⟨"2", "n2", "nt", Tag.node, none, none, none⟩
        ++ ";;\n\n") ∈ (⟨[0, 1, 2, 3],
          [(some 0, "n1\n\t<- node_;;\n\n"), (some 1, "n2\n\t<- node_;;\n\n"),
           (some 2, "n3\n\t<- node_;;\n\n"),
           (some 3, "n1 -> n3: n2;;\n\n")]⟩ : St).events ∧
      ∃ j e s se, j ∈ [0, 1, 2, 3, 4] ∧
        ([⟨"1", "n1", "nt", Tag.node, none, none, none⟩,
          ⟨"2", "n2", "nt", Tag.node, none, none, none⟩,
          ⟨"3", "n3", "nt", Tag.node, none, none, none⟩,
          ⟨"4", "a1", "at", Tag.arc, some (0, 1), none, none⟩,
          ⟨"5", "a2", "at", Tag.arc, some (2, 3), none, none⟩] : Graph)[j]? = some e ∧
        (e.tag = Tag.arc ∨ e.tag = Tag.pair) ∧ e.conn = some (s, 3) ∧
        ([⟨"1", "n1", "nt", Tag.node, none, none, none⟩,
          ⟨"2", "n2", "nt", Tag.node, none, none, none⟩,
          ⟨"3", "n3", "nt", Tag.node, none, none, none⟩,
          ⟨"4", "a1", "at", Tag.arc, some (0, 1), none, none⟩,
          ⟨"5", "a2", "at", Tag.arc, some (2, 3), none, none⟩] : Graph)[s]? = some se ∧
        a = identOrFallback "node_" se :=
  write_ternary_consumption
    [⟨"1", "n1", "nt", Tag.node, none, none, none⟩,
     ⟨"2", "n2", "nt", Tag.node, none, none, none⟩,
     ⟨"3", "n3", "nt", Tag.node, none, none, none⟩,
     ⟨"4", "a1", "at", Tag.arc, some (0, 1), none, none⟩,
     ⟨"5", "a2", "at", Tag.arc, some (2, 3), none, none⟩]
    (fun _ => "") (fun _ => "") 2 0 [0, 1, 2, 3, 4] _
    4 3 2 0 1
    ⟨"5", "a2", "at", Tag.arc, some (2, 3), none, none⟩
    ⟨"4", "a1", "at", Tag.arc, some (0, 1), none, none⟩
    ⟨"1", "n1", "nt", Tag.node, none, none, none⟩
    ⟨"2", "n2", "nt", Tag.node, none, none, none⟩
    (by simp only [ShapeOk]; decide) (by simp only [ScopeOk]; decide)
    rfl (Or.inl rfl) rfl rfl (Or.inl rfl) rfl rfl rfl
    (by decide) (by decide) (by decide) rfl

/-! ## C4: named relation edges -/

/-- C4 counterexample: the spec's scenario 1 (nodes n1, n2; arc a1 of type
`nrel_foo` from n1 to n2).  The connector-type→symbol lookup is external to
`src/`; modelled from the spec it may yield nothing, and `nrel_foo` is not
an SCg connector type, so the not-found fallback applies.  The claim says
the output contains `n1 => nrel_foo: n2;;`; it does not — `Write` in this
source has no named-relation branch at all. -/
theorem relation_edge_counterexample :
    ∃ st', write [⟨"1", "n1", "nt", Tag.node, none, none, none⟩,
        ⟨"2", "n2", "nt", Tag.node, none, none, none⟩,
        ⟨"3", "a1", "nrel_foo", Tag.arc, some (0, 1), none, none⟩]
      (fun _ => "") (fun _ => "") 2 [0, 1, 2] 0 ⟨[], []⟩ = .ok st' ∧
      hasSub "n1 => nrel_foo: n2;;".toList (outText st').toList = false :=
  ⟨⟨[0, 1, 2],
    [(some 0, "n1\n\t<- node_;;\n\n"), (some 1, "n2\n\t<- node_;;\n\n"),
     (some 2, "n1 -> n2;;\n\n")]⟩, rfl, by decide⟩

/-- C4 (amended): `Write` in this source renders every connector through the
connector-symbol lookup only (fallback `->`), in binary or ternary form; it
has no named-relation arrow and no reverse-arrow orientation logic.  In the
spec's scenario, with the symbol lookup yielding nothing, the output
contains the plain binary edge `n1 -> n2;;` and no `=>` or `<=` arrow. -/
theorem relation_scenario_binary :
    ∃ st', write [⟨"1", "n1", "nt", Tag.node, none, none, none⟩,
        ⟨"2", "n2", "nt", Tag.node, none, none, none⟩,
        ⟨"3", "a1", "nrel_foo", Tag.arc, some (0, 1), none, none⟩]
      (fun _ => "") (fun _ => "") 2 [0, 1, 2] 0 ⟨[], []⟩ = .ok st' ∧
      hasSub "n1 -> n2;;".toList (outText st').toList = true ∧
      hasSub "=>".toList (outText st').toList = false ∧
      hasSub "<=".toList (outText st').toList = false :=
  ⟨⟨[0, 1, 2],
    [(some 0, "n1\n\t<- node_;;\n\n"), (some 1, "n2\n\t<- node_;;\n\n"),
     (some 2, "n1 -> n2;;\n\n")]⟩, rfl, by decide, by decide, by decide⟩

end SCsWriter
